import Mathlib

/-!
Verification of the scaffolding scripts of the context-engineering-framework
repository. The repository ships three variants of the scaffolder:

* the simple clone-based script (`create-context-engineering-app/index.js`,
  first script): modelled by `runSimple`;
* the refactored clone-based script (same file, second script, with
  `main`/try-catch-finally): modelled by `runRefactored`;
* the legacy local-template script (unnamed source file): modelled by
  `runLocal`.

The file system is modelled as a finite list of (path, content) files plus a
list of directories; paths are lists of components. Node `fs` / `fs-extra`
calls are modelled as pure state transformers; `execSync("git clone ...")` is
modelled as grafting the template tree under the temp directory, and
`execSync("git init")` as creating a `.git` directory at its `cwd`, failing
when the environment flag `gitOk` is false. Fallible calls return
`StepResult.err`, which models a thrown exception: straight-line scripts stop
there, and the refactored script's catch/finally is modelled explicitly.
-/

abbrev FPath := List String

/-- A file system: files with contents, and directories. -/
structure FS where
  files : List (FPath × List Char)
  dirs : List FPath
deriving DecidableEq

/-- `fs.existsSync`: a path exists if it is a directory, an ancestor of a
directory, a file, or an ancestor of a file. -/
def FS.existsPath (s : FS) (p : FPath) : Bool :=
  s.dirs.any (fun d => p.isPrefixOf d) || s.files.any (fun f => p.isPrefixOf f.1)

/-- `fs.readFileSync`: the content of the file at `p`, if any. -/
def FS.readFile (s : FS) (p : FPath) : Option (List Char) :=
  (s.files.find? (fun f => f.1 == p)).map (fun f => f.2)

/-- `fs.writeFileSync`: create or overwrite the file at `p`. -/
def FS.writeFile (s : FS) (p : FPath) (c : List Char) : FS :=
  FS.mk ((p, c) :: s.files.filter (fun f => !(f.1 == p))) s.dirs

/-- `fs.mkdirSync` with `recursive: true` (never throws). -/
def FS.mkdirAt (s : FS) (p : FPath) : FS :=
  FS.mk s.files (p :: s.dirs)

/-- `fs.removeSync`: delete the whole subtree rooted at `p`. -/
def FS.removeRec (s : FS) (p : FPath) : FS :=
  FS.mk (s.files.filter (fun f => !(p.isPrefixOf f.1)))
        (s.dirs.filter (fun d => !(p.isPrefixOf d)))

/-- `fs.copySync src dst`: copy the file or subtree at `src` to `dst`,
overwriting files already present at the target paths. -/
def FS.copyRec (s : FS) (src dst : FPath) : FS :=
  let moved := s.files.filterMap (fun f =>
    if src.isPrefixOf f.1 then some (dst ++ f.1.drop src.length, f.2) else none)
  let movedDirs := s.dirs.filterMap (fun d =>
    if src.isPrefixOf d then some (dst ++ d.drop src.length) else none)
  FS.mk (moved ++ s.files.filter (fun f => moved.all (fun m => !(m.1 == f.1))))
        (movedDirs ++ s.dirs)

/-- `fs.renameSync src dst`: move the file or subtree at `src` to `dst`. -/
def FS.renamePath (s : FS) (src dst : FPath) : FS :=
  FS.mk (s.files.map (fun f =>
          if src.isPrefixOf f.1 then (dst ++ f.1.drop src.length, f.2) else f))
        (s.dirs.map (fun d =>
          if src.isPrefixOf d then dst ++ d.drop src.length else d))

/-- The name of the immediate child of `p` on the way to `q`, if `q` is below `p`. -/
def childNameOf (p q : FPath) : Option String :=
  if p.isPrefixOf q then (q.drop p.length).head? else none

/-- `fs.readdirSync`: names of the entries directly inside directory `p`. -/
def FS.readdirNames (s : FS) (p : FPath) : List String :=
  ((s.files.filterMap (fun f => childNameOf p f.1)) ++
   (s.dirs.filterMap (fun d => childNameOf p d))).dedup

/-- Grafting a relative tree `t` under `root` of `s`; models `git clone`
(for the clone-based scripts) and the package-local template directory
(for the legacy script). -/
def FS.graft (s : FS) (root : FPath) (t : FS) : FS :=
  FS.mk (t.files.map (fun f => (root ++ f.1, f.2)) ++ s.files)
        (t.dirs.map (fun d => root ++ d) ++ root :: s.dirs)

/-- Rendering of a model path as the string Node's `path.join` would produce. -/
def pathString : FPath → List Char
  | [] => []
  | [x] => x.data
  | x :: xs => x.data ++ '/' :: pathString xs

/-- Result of a step of the pipeline: `ok` carries the new file-system state,
`err` models a thrown exception / non-zero exit, carrying the state at the
moment of failure. -/
inductive StepResult where
  | ok (s : FS)
  | err (msg : String) (s : FS)
deriving DecidableEq

/-- Sequencing of fallible steps: an exception aborts the straight-line rest. -/
def StepResult.andThen (r : StepResult) (f : FS → StepResult) : StepResult :=
  match r with
  | .ok s => f s
  | .err m s => .err m s

/-- Whether the run exited with status zero. -/
def StepResult.isOk : StepResult → Bool
  | .ok _ => true
  | .err _ _ => false

/-- The file system once the process has exited, on success or failure. -/
def StepResult.finalState : StepResult → FS
  | .ok s => s
  | .err _ s => s

/-- The files of `s` lying at or below `p`. -/
def FS.filesUnder (s : FS) (p : FPath) : List (FPath × List Char) :=
  s.files.filter (fun f => p.isPrefixOf f.1)

/-- The directories of `s` lying at or below `p`. -/
def FS.dirsUnder (s : FS) (p : FPath) : List FPath :=
  s.dirs.filter (fun d => p.isPrefixOf d)

/-- The environment outside the file system: whether `git init` succeeds. -/
structure Env where
  gitOk : Bool
deriving DecidableEq

/-- `execSync("git init", { cwd: dir })`: creates `dir/.git`, throws if git fails. -/
def gitInitAt (env : Env) (dir : FPath) (s : FS) : StepResult :=
  if env.gitOk then .ok (s.mkdirAt (dir ++ [".git"])) else .err "git init failed" s

/-- `fs.mkdirSync` without `recursive`: throws if the path already exists. -/
def mkdirStrict (p : FPath) (s : FS) : StepResult :=
  if s.existsPath p then .err "EEXIST" s else .ok (s.mkdirAt p)

/-- `fs.copySync` as a step: throws if the source does not exist. -/
def copySyncStep (src dst : FPath) (s : FS) : StepResult :=
  if s.existsPath src then .ok (s.copyRec src dst) else .err "ENOENT" s

/-- `fs.renameSync` as a step: throws if the source does not exist. -/
def renameStep (src dst : FPath) (s : FS) : StepResult :=
  if s.existsPath src then .ok (s.renamePath src dst) else .err "ENOENT" s

/-! ### String helpers: JavaScript `replace` -/

/-- JavaScript `str.replace(pat, rep)` without the `g` flag on a literal
pattern: replace only the leftmost occurrence. -/
def replaceFirstL (pat rep : List Char) : List Char → List Char
  | [] => []
  | c :: s =>
    if pat.isPrefixOf (c :: s) && !pat.isEmpty then rep ++ (c :: s).drop pat.length
    else c :: replaceFirstL pat rep s

/-- Fuel-driven worker for `replaceAllL`; the fuel is an upper bound on the
length of the remaining input, so the recursion is structural and the kernel
can evaluate it. -/
def replaceAllGo (pat rep : List Char) : Nat → List Char → List Char
  | 0, s => s
  | _ + 1, [] => []
  | n + 1, c :: s =>
    if pat.isPrefixOf (c :: s) && !pat.isEmpty then
      rep ++ replaceAllGo pat rep n ((c :: s).drop pat.length)
    else c :: replaceAllGo pat rep n s

/-- JavaScript `str.replace(/pat/g, rep)` on a literal pattern: replace all
occurrences, scanning left to right without rescanning replaced text. -/
def replaceAllL (pat rep s : List Char) : List Char :=
  replaceAllGo pat rep s.length s

/-- Fuel-driven worker for `splitOnL`. -/
def splitOnGo (pat : List Char) : Nat → List Char → List (List Char)
  | 0, s => [s]
  | _ + 1, [] => [[]]
  | n + 1, c :: s =>
    if pat.isPrefixOf (c :: s) && !pat.isEmpty then
      [] :: splitOnGo pat n ((c :: s).drop pat.length)
    else
      match splitOnGo pat n s with
      | [] => [[c]]
      | p :: ps => (c :: p) :: ps

/-- The segments of `s` between the leftmost non-overlapping occurrences of
`pat`; `s` is their interleaving with `pat`, and `replaceAllL` interleaves
them with the replacement instead. -/
def splitOnL (pat s : List Char) : List (List Char) :=
  splitOnGo pat s.length s

/-- Number of positions of `s` at which `pat` occurs. -/
def countOcc (pat : List Char) : List Char → Nat
  | [] => 0
  | c :: s => (if pat.isPrefixOf (c :: s) then 1 else 0) + countOcc pat s

/-- Interleaving of a list of segments with a separator: the common shape of
a string before and after global replacement. -/
def joinWith (sep : List Char) : List (List Char) → List Char
  | [] => []
  | [x] => x
  | x :: xs => x ++ sep ++ joinWith sep xs

/-- The placeholder token of the PRP templates. -/
def llmAgentToken : List Char :=
  ['{', '{', 'L', 'L', 'M', '_', 'A', 'G', 'E', 'N', 'T', '}', '}']

/-- `file.endsWith(".md")` / `file.replace(".md", "")` of the language
discovery step: strip the first occurrence of `.md`. -/
def mdName (file : String) : String := String.mk (replaceFirstL ".md".data [] file.data)

/-- Discovery of language identifiers from a directory listing: keep names
ending in `.md`, drop the extension. -/
def mdBasenames (names : List String) : List String :=
  (names.filter (fun f => ".md".data.isSuffixOf f.data)).map mdName

/-! ### Argument parsing (yargs) -/

/-- The fixed two-element LLM enumeration. -/
def SUPPORTED_LLMS : List String := ["GEMINI", "CLAUDE"]

/-- Raw command-line input: `--name`, `--lang`, `--llm`. -/
structure RawArgs where
  name : String
  lang : String
  llm : String
deriving DecidableEq

/-- Validated arguments; `llm` is the uppercase normalization. -/
structure Args where
  name : String
  lang : String
  llm : String
deriving DecidableEq

/-- The yargs declaration of all three scripts: `lang` restricted by
`choices: availableLanguages`, `llm` coerced to uppercase and restricted by
`choices: SUPPORTED_LLMS`; a violated choice makes yargs exit non-zero
(`none`). -/
def parseArguments (availableLanguages : List String) (raw : RawArgs) : Option Args :=
  let llmUp := String.mk (raw.llm.data.map Char.toUpper)
  if availableLanguages.contains raw.lang && SUPPORTED_LLMS.contains llmUp
  then some (Args.mk raw.name raw.lang llmUp)
  else none

/-! ### Fixed locations -/

/-- The temporary clone directory (`os.tmpdir()` plus random suffix). -/
def tempDir : FPath := ["tmp", "cef-clone"]

/-- The working directory the user invokes the tool from. -/
def cwd : FPath := ["home", "user"]

/-- The install location of the legacy script's package; its template tree is
`path.resolve(__dirname, "..")`. -/
def appRoot : FPath := ["app"]

/-! ### Steps of the refactored script (second script of index.js) -/

/-- `getAvailableLanguages`: fail if the Rules directory is missing, fail if
it yields no languages. -/
def getAvailableLanguages (tmp : FPath) (s : FS) : Except String (List String) :=
  let rulesDir := tmp ++ ["Rules"]
  if !(s.existsPath rulesDir) then
    .error "Rules directory not found in the cloned repository"
  else
    let languages := mdBasenames (s.readdirNames rulesDir)
    if languages.isEmpty then .error "No language files found in Rules directory"
    else .ok languages

/-- `validateProjectDirectory`: throw if the destination already exists. -/
def validateProjectDirectory (projectDir : FPath) (s : FS) : StepResult :=
  if s.existsPath projectDir then .err "Directory already exists" s else .ok s

/-- `createProjectDirectory`: `mkdirSync` with `recursive: true`. -/
def createProjectDirectory (projectDir : FPath) (s : FS) : StepResult :=
  .ok (s.mkdirAt projectDir)

/-- `copyCoreDiretories` (name as in the source): copy `.context` and
`examples` when present, silently skip otherwise. -/
def copyCoreDiretories (templateDir projectDir : FPath) (s : FS) : StepResult :=
  .ok ([".context", "examples"].foldl (fun acc d =>
    if acc.existsPath (templateDir ++ [d])
    then acc.copyRec (templateDir ++ [d]) (projectDir ++ [d]) else acc) s)

/-- The refactored script's `REQUIRED_FILES`. -/
def REQUIRED_FILES : List String := ["INITIAL_EXAMPLE.md", "INITIAL.md", "README.md"]

/-- `copyRequiredFiles`: copy each required file when present, skip otherwise. -/
def copyRequiredFiles (templateDir projectDir : FPath) (s : FS) : StepResult :=
  .ok (REQUIRED_FILES.foldl (fun acc f =>
    if acc.existsPath (templateDir ++ [f])
    then acc.copyRec (templateDir ++ [f]) (projectDir ++ [f]) else acc) s)

/-- `copyLLMFile`: copy only `<llm>.md`, when present. -/
def copyLLMFile (templateDir projectDir : FPath) (llm : String) (s : FS) : StepResult :=
  let llmFile := llm ++ ".md"
  .ok (if s.existsPath (templateDir ++ [llmFile])
       then s.copyRec (templateDir ++ [llmFile]) (projectDir ++ [llmFile]) else s)

/-- `configurePRPTemplate`, parameterized by the name of the assets directory
(`.context` in index.js, `.gemini` in the legacy script): if the per-language
variant exists, substitute the placeholder and write the result over the
generic template; otherwise do nothing. -/
def configurePRPTemplateIn (assets : String) (projectDir : FPath)
    (language llm : String) (s : FS) : StepResult :=
  let prpTemplatePath := projectDir ++ [assets, "templates", "prp_template.md"]
  let langTemplatePath :=
    projectDir ++ [assets, "templates", "prp_template_" ++ language ++ ".md"]
  if s.existsPath langTemplatePath then
    match s.readFile langTemplatePath with
    | some prpContent =>
      .ok (s.writeFile prpTemplatePath (replaceAllL llmAgentToken llm.data prpContent))
    | none => .err "EISDIR" s
  else .ok s

/-- `configurePRPTemplate` of the index.js scripts (assets dir `.context`). -/
def configurePRPTemplate (projectDir : FPath) (language llm : String) (s : FS) :
    StepResult :=
  configurePRPTemplateIn ".context" projectDir language llm s

/-- `applyLanguageRules` of the refactored script: read the language rules
from the template source's Rules directory and write their content over the
destination's `<llm>.md`; warn and skip when absent. -/
def applyLanguageRules (templateDir projectDir : FPath) (language llm : String)
    (s : FS) : StepResult :=
  let langRulesPath := templateDir ++ ["Rules", language ++ ".md"]
  if s.existsPath langRulesPath then
    match s.readFile langRulesPath with
    | some langRulesContent =>
      .ok (s.writeFile (projectDir ++ [llm ++ ".md"]) langRulesContent)
    | none => .err "EISDIR" s
  else .ok s

/-- `initializeProjectStructure` of the refactored script: create the inner
source directory, then `git init` inside it; a git failure is caught and only
warned about. -/
def initializeProjectStructure (env : Env) (projectDir : FPath)
    (projectName : String) (s : FS) : StepResult :=
  let srcDir := projectDir ++ [projectName]
  let s1 := s.mkdirAt srcDir
  match gitInitAt env srcDir s1 with
  | .ok s2 => .ok s2
  | .err _ s2 => .ok s2

/-- `cleanupTemplateFiles`: delete every entry of `.context/templates` other
than `prp_template.md`. -/
def cleanupTemplateFiles (projectDir : FPath) (s : FS) : StepResult :=
  let templatesDir := projectDir ++ [".context", "templates"]
  if !(s.existsPath templatesDir) then .ok s
  else .ok ((s.readdirNames templatesDir).foldl (fun acc file =>
    if file == "prp_template.md" then acc
    else acc.removeRec (templatesDir ++ [file])) s)

/-- `cleanupTempDirectory`: `fs.removeSync(tempDir)` inside try/catch. -/
def cleanupTempDirectory (tmp : FPath) (s : FS) : FS := s.removeRec tmp

/-- The try block of the refactored script's `main`. -/
def runRefactoredTry (repo : FS) (env : Env) (raw : RawArgs) (s0 : FS) : StepResult :=
  let s1 := s0.graft tempDir repo
  match getAvailableLanguages tempDir s1 with
  | .error m => .err m s1
  | .ok availableLanguages =>
    match parseArguments availableLanguages raw with
    | none => .err "Invalid arguments" s1
    | some a =>
      let projectDir := cwd ++ [a.name]
      (validateProjectDirectory projectDir s1).andThen fun s2 =>
      (createProjectDirectory projectDir s2).andThen fun s3 =>
      (copyCoreDiretories tempDir projectDir s3).andThen fun s4 =>
      (copyRequiredFiles tempDir projectDir s4).andThen fun s5 =>
      (copyLLMFile tempDir projectDir a.llm s5).andThen fun s6 =>
      (configurePRPTemplate projectDir a.lang a.llm s6).andThen fun s7 =>
      (applyLanguageRules tempDir projectDir a.lang a.llm s7).andThen fun s8 =>
      (initializeProjectStructure env projectDir a.name s8).andThen fun s9 =>
      cleanupTemplateFiles projectDir s9

/-- `main` of the refactored script: the try block, a catch mapping any error
to `process.exit(1)`, and a `finally` that removes the temp clone. Because
`process.exit(1)` inside the catch terminates the Node process immediately,
the `finally` block runs only when the try block completed successfully; on
every failure path the temp clone is left on disk. -/
def runRefactored (repo : FS) (env : Env) (raw : RawArgs) (s0 : FS) : StepResult :=
  match runRefactoredTry repo env raw s0 with
  | .ok s => .ok (cleanupTempDirectory tempDir s)
  | .err m s => .err m s

/-! ### The simple clone-based script (first script of index.js) -/

/-- Step 5 of the simple script, with the swapped `writeFileSync` arguments
exactly as in the source: when the language rules document exists, its
content is read (and dropped), and the path string of the destination's
branding file is written into the template clone's Rules file. -/
def applyLangRulesSwapped (templateDir projectDir : FPath) (language llm : String)
    (s : FS) : StepResult :=
  let geminiRulesPath := projectDir ++ ["GEMINI.md"]
  let claudeRulesPath := projectDir ++ ["CLAUDE.md"]
  let langRulesPath := templateDir ++ ["Rules", language ++ ".md"]
  if s.existsPath langRulesPath then
    match s.readFile langRulesPath with
    | some _ =>
      if llm == "GEMINI"
      then .ok (s.writeFile langRulesPath (pathString geminiRulesPath))
      else .ok (s.writeFile langRulesPath (pathString claudeRulesPath))
    | none => .err "EISDIR" s
  else .ok s

/-- The simple script: clone, discover languages, parse, then the
straight-line pipeline; `removeSync(tempDir)` runs only at its very end, so
any earlier exception exits without cleanup. -/
def runSimple (repo : FS) (env : Env) (raw : RawArgs) (s0 : FS) : StepResult :=
  let s1 := s0.graft tempDir repo
  let rulesDir := tempDir ++ ["Rules"]
  if !(s1.existsPath rulesDir) then .err "ENOENT readdirSync Rules" s1
  else
  let availableLangs := mdBasenames (s1.readdirNames rulesDir)
  match parseArguments availableLangs raw with
  | none => .err "Invalid arguments" s1
  | some a =>
    let projectDir := cwd ++ [a.name]
    (mkdirStrict projectDir s1).andThen fun s2 =>
    (copySyncStep (tempDir ++ [".context"]) (projectDir ++ [".context"]) s2).andThen fun s3 =>
    (copySyncStep (tempDir ++ ["examples"]) (projectDir ++ ["examples"]) s3).andThen fun s4 =>
    ((if a.llm == "CLAUDE"
      then copySyncStep (tempDir ++ ["CLAUDE.md"]) (projectDir ++ ["CLAUDE.md"]) s4
      else copySyncStep (tempDir ++ ["GEMINI.md"]) (projectDir ++ ["GEMINI.md"]) s4)).andThen fun s5 =>
    (copySyncStep (tempDir ++ ["INITIAL_EXAMPLE.md"]) (projectDir ++ ["INITIAL_EXAMPLE.md"]) s5).andThen fun s6 =>
    (copySyncStep (tempDir ++ ["INITIAL.md"]) (projectDir ++ ["INITIAL.md"]) s6).andThen fun s7 =>
    (copySyncStep (tempDir ++ ["README.md"]) (projectDir ++ ["README.md"]) s7).andThen fun s8 =>
    (configurePRPTemplate projectDir a.lang a.llm s8).andThen fun s9 =>
    (applyLangRulesSwapped tempDir projectDir a.lang a.llm s9).andThen fun s10 =>
    (mkdirStrict (projectDir ++ [a.name]) s10).andThen fun s11 =>
    (gitInitAt env (projectDir ++ [a.name]) s11).andThen fun s12 =>
    .ok (s12.removeRec tempDir)

/-! ### The legacy local-template script (unnamed source file) -/

/-- Step 5 of the legacy script: read the language rules from the project's
own copied Rules directory and write the content into BOTH branding files. -/
def applyLanguageRulesBoth (projectDir : FPath) (language : String) (s : FS) :
    StepResult :=
  let geminiRulesPath := projectDir ++ ["GEMINI.md"]
  let claudeRulesPath := projectDir ++ ["CLAUDE.md"]
  let langRulesPath := projectDir ++ ["Rules", language ++ ".md"]
  if s.existsPath langRulesPath then
    match s.readFile langRulesPath with
    | some c => .ok ((s.writeFile geminiRulesPath c).writeFile claudeRulesPath c)
    | none => .err "EISDIR" s
  else .ok s

/-- The legacy script: template read from the package-local tree, copies of
both branding files, rules written into both, `src` renamed to the project
name, and `git init` run with `cwd: projectDir` (the destination root). -/
def runLocal (template : FS) (env : Env) (raw : RawArgs) (s0 : FS) : StepResult :=
  let s1 := s0.graft appRoot template
  let rulesDir := appRoot ++ ["Rules"]
  if !(s1.existsPath rulesDir) then .err "ENOENT readdirSync Rules" s1
  else
  let availableLangs := mdBasenames (s1.readdirNames rulesDir)
  match parseArguments availableLangs raw with
  | none => .err "Invalid arguments" s1
  | some a =>
    let projectDir := cwd ++ [a.name]
    (mkdirStrict projectDir s1).andThen fun s2 =>
    (copySyncStep (appRoot ++ [".gemini"]) (projectDir ++ [".gemini"]) s2).andThen fun s3 =>
    (copySyncStep (appRoot ++ ["examples"]) (projectDir ++ ["examples"]) s3).andThen fun s4 =>
    (copySyncStep (appRoot ++ ["Rules"]) (projectDir ++ ["Rules"]) s4).andThen fun s5 =>
    (copySyncStep (appRoot ++ ["src"]) (projectDir ++ ["src"]) s5).andThen fun s6 =>
    (copySyncStep (appRoot ++ ["tests"]) (projectDir ++ ["tests"]) s6).andThen fun s7 =>
    (copySyncStep (appRoot ++ [".gitattributes"]) (projectDir ++ [".gitattributes"]) s7).andThen fun s8 =>
    (copySyncStep (appRoot ++ [".gitignore"]) (projectDir ++ [".gitignore"]) s8).andThen fun s9 =>
    (copySyncStep (appRoot ++ ["CLAUDE.md"]) (projectDir ++ ["CLAUDE.md"]) s9).andThen fun s10 =>
    (copySyncStep (appRoot ++ ["GEMINI.md"]) (projectDir ++ ["GEMINI.md"]) s10).andThen fun s11 =>
    (copySyncStep (appRoot ++ ["INITIAL_EXAMPLE.md"]) (projectDir ++ ["INITIAL_EXAMPLE.md"]) s11).andThen fun s12 =>
    (copySyncStep (appRoot ++ ["INITIAL.md"]) (projectDir ++ ["INITIAL.md"]) s12).andThen fun s13 =>
    (copySyncStep (appRoot ++ ["README.md"]) (projectDir ++ ["README.md"]) s13).andThen fun s14 =>
    (configurePRPTemplateIn ".gemini" projectDir a.lang a.llm s14).andThen fun s15 =>
    (applyLanguageRulesBoth projectDir a.lang s15).andThen fun s16 =>
    (renameStep (projectDir ++ ["src"]) (projectDir ++ [a.name]) s16).andThen fun s17 =>
    gitInitAt env projectDir s17

/-! ### Concrete fixtures for closed runs -/

/-- Content of the react PRP template variant: text around two occurrences of
the placeholder token. -/
def reactVariantContent : List Char :=
  ('U' :: llmAgentToken) ++ ('V' :: llmAgentToken) ++ ['W']

/-- A concrete template repository as cloned by the index.js scripts: rules
for `python` and `react`, a generic PRP template, a react variant, examples,
both branding files and the three root documents. -/
def templateRepo : FS :=
  FS.mk
    [ (["Rules", "python.md"], "PYRULES".data),
      (["Rules", "react.md"], "REACTRULES".data),
      ([".context", "templates", "prp_template.md"], "GENERIC".data),
      ([".context", "templates", "prp_template_react.md"], reactVariantContent),
      ([".context", "scripts", "execute-prp.sh"], "SCRIPT".data),
      (["examples", "ex1.md"], "EX1".data),
      (["CLAUDE.md"], "BRAND-CLAUDE".data),
      (["GEMINI.md"], "BRAND-GEMINI".data),
      (["INITIAL_EXAMPLE.md"], "IE".data),
      (["INITIAL.md"], "IN".data),
      (["README.md"], "RM".data) ]
    [ ["Rules"], [".context"], [".context", "templates"], [".context", "scripts"],
      ["examples"] ]

/-- A concrete template tree of the legacy script's package. -/
def localTemplate : FS :=
  FS.mk
    [ (["Rules", "python.md"], "PYRULES".data),
      (["Rules", "react.md"], "REACTRULES".data),
      ([".gemini", "templates", "prp_template.md"], "GENERIC".data),
      ([".gemini", "templates", "prp_template_react.md"], reactVariantContent),
      (["examples", "ex1.md"], "EX1".data),
      (["src", "index.ts"], "SRC".data),
      (["tests", "t1.ts"], "T1".data),
      ([".gitattributes"], "GA".data),
      ([".gitignore"], "GI".data),
      (["CLAUDE.md"], "BRAND-CLAUDE".data),
      (["GEMINI.md"], "BRAND-GEMINI".data),
      (["INITIAL_EXAMPLE.md"], "IE".data),
      (["INITIAL.md"], "IN".data),
      (["README.md"], "RM".data) ]
    [ ["Rules"], [".gemini"], [".gemini", "templates"], ["examples"], ["src"],
      ["tests"] ]

/-- A template whose Rules directory exists but holds no `.md` file. -/
def emptyRulesRepo : FS :=
  FS.mk [ (["Rules", "README.txt"], "X".data) ] [ ["Rules"] ]

/-- An initial user file system: just the working directory. -/
def baseState : FS := FS.mk [] [cwd]

/-- An initial file system in which the destination `myapp` already exists
and holds a file. -/
def occupiedState : FS :=
  FS.mk [ (cwd ++ ["myapp", "keep.txt"], "KEEP".data) ] [cwd, cwd ++ ["myapp"]]

/-- `--name myapp --lang python --llm gemini` (lowercase llm). -/
def rawPyGemini : RawArgs := RawArgs.mk "myapp" "python" "gemini"

/-- `--name myapp --lang react --llm CLAUDE`. -/
def rawReactClaude : RawArgs := RawArgs.mk "myapp" "react" "CLAUDE"

/-- An environment in which `git init` succeeds. -/
def envOk : Env := Env.mk true

/-- An environment in which `git init` fails. -/
def envNoGit : Env := Env.mk false

/-! ### Theorems. First: generic facts about JavaScript global replacement -/

/-- The fuel of `replaceAllGo` is irrelevant once it bounds the input length. -/
theorem replaceAllGo_congr (pat rep : List Char) :
    ∀ n m s, List.length s ≤ n → List.length s ≤ m →
      replaceAllGo pat rep n s = replaceAllGo pat rep m s := by
  intro n
  induction n with
  | zero =>
    intro m s hn _
    have hs : s = [] := List.eq_nil_of_length_eq_zero (Nat.le_zero.mp hn)
    subst hs
    cases m <;> rfl
  | succ n ih =>
    intro m s hn hm
    cases s with
    | nil => cases m <;> rfl
    | cons c s' =>
      cases m with
      | zero => simp at hm
      | succ m' =>
        simp only [List.length_cons] at hn hm
        by_cases hb : (pat.isPrefixOf (c :: s') && !pat.isEmpty) = true
        · have hpat : 0 < pat.length := by
            have hne : !pat.isEmpty = true := by
              cases h1 : pat.isPrefixOf (c :: s') <;> simp_all
            cases pat <;> simp_all
          simp only [replaceAllGo, hb, if_true]
          have h1 : ((c :: s').drop pat.length).length ≤ n := by
            simp only [List.length_drop, List.length_cons]
            omega
          have h2 : ((c :: s').drop pat.length).length ≤ m' := by
            simp only [List.length_drop, List.length_cons]
            omega
          rw [ih m' _ h1 h2]
        · have hb' : (pat.isPrefixOf (c :: s') && !pat.isEmpty) = false :=
            eq_false_of_ne_true hb
          simp only [replaceAllGo, hb', Bool.false_eq_true, if_false]
          rw [ih m' s' (by omega) (by omega)]

/-- The scanning condition in `Bool` form, from its `Prop` reading. -/
theorem matchCond_true {pat : List Char} {c : Char} {s : List Char}
    (hp : pat <+: (c :: s)) (hT : pat ≠ []) :
    (pat.isPrefixOf (c :: s) && !pat.isEmpty) = true := by
  have h1 : pat.isPrefixOf (c :: s) = true := by
    simp [ List.isPrefixOf_iff_prefix]
    exact hp
  have h2 : !pat.isEmpty = true := by cases pat <;> simp_all
  simp [h1, h2, hT]

/-- The scanning condition is false when the pattern does not match here. -/
theorem matchCond_false {pat : List Char} {c : Char} {s : List Char}
    (hp : ¬ pat <+: (c :: s)) :
    (pat.isPrefixOf (c :: s) && !pat.isEmpty) = false := by
  have h1 : pat.isPrefixOf (c :: s) = false := by
    cases h : pat.isPrefixOf (c :: s)
    · rfl
    · exact absurd (by simpa [ List.isPrefixOf_iff_prefix] using h) hp
  simp [h1]

/-- Unfolding `replaceAllL` at a match position. -/
theorem replaceAllL_cons_match (pat rep : List Char) (c : Char) (s : List Char)
    (hp : pat <+: (c :: s)) (hT : pat ≠ []) :
    replaceAllL pat rep (c :: s) =
      rep ++ replaceAllL pat rep ((c :: s).drop pat.length) := by
  have hb := matchCond_true hp hT
  have hpat : 0 < pat.length := List.length_pos.mpr hT
  show replaceAllGo pat rep (s.length + 1) (c :: s) = _
  simp only [replaceAllGo, hb, if_true]
  congr 1
  apply replaceAllGo_congr
  · simp only [List.length_drop, List.length_cons]
    omega
  · exact Nat.le_refl _

/-- Unfolding `replaceAllL` at a non-match position. -/
theorem replaceAllL_cons_nomatch (pat rep : List Char) (c : Char) (s : List Char)
    (hp : ¬ pat <+: (c :: s)) :
    replaceAllL pat rep (c :: s) = c :: replaceAllL pat rep s := by
  have hb := matchCond_false hp
  show replaceAllGo pat rep (s.length + 1) (c :: s) = _
  simp only [replaceAllGo, hb, Bool.false_eq_true, if_false]
  rfl

/-- The fuel of `splitOnGo` is irrelevant once it bounds the input length. -/
theorem splitOnGo_congr (pat : List Char) :
    ∀ n m s, List.length s ≤ n → List.length s ≤ m →
      splitOnGo pat n s = splitOnGo pat m s := by
  intro n
  induction n with
  | zero =>
    intro m s hn _
    have hs : s = [] := List.eq_nil_of_length_eq_zero (Nat.le_zero.mp hn)
    subst hs
    cases m <;> rfl
  | succ n ih =>
    intro m s hn hm
    cases s with
    | nil => cases m <;> rfl
    | cons c s' =>
      cases m with
      | zero => simp at hm
      | succ m' =>
        simp only [List.length_cons] at hn hm
        by_cases hb : (pat.isPrefixOf (c :: s') && !pat.isEmpty) = true
        · have hpat : 0 < pat.length := by
            have hne : !pat.isEmpty = true := by
              cases h1 : pat.isPrefixOf (c :: s') <;> simp_all
            cases pat <;> simp_all
          simp only [splitOnGo, hb, if_true]
          have h1 : ((c :: s').drop pat.length).length ≤ n := by
            simp only [List.length_drop, List.length_cons]
            omega
          have h2 : ((c :: s').drop pat.length).length ≤ m' := by
            simp only [List.length_drop, List.length_cons]
            omega
          rw [ih m' _ h1 h2]
        · have hb' : (pat.isPrefixOf (c :: s') && !pat.isEmpty) = false :=
            eq_false_of_ne_true hb
          simp only [splitOnGo, hb', Bool.false_eq_true, if_false]
          rw [ih m' s' (by omega) (by omega)]

/-- `splitOnGo` never returns the empty list of segments. -/
theorem splitOnGo_ne_nil (pat : List Char) :
    ∀ n s, splitOnGo pat n s ≠ [] := by
  intro n
  induction n with
  | zero => intro s; simp [splitOnGo]
  | succ n ih =>
    intro s
    cases s with
    | nil => simp [splitOnGo]
    | cons c s' =>
      simp only [splitOnGo]
      by_cases hb : (pat.isPrefixOf (c :: s') && !pat.isEmpty) = true
      · simp [hb]
      · have hb' := eq_false_of_ne_true hb
        simp only [hb', Bool.false_eq_true, if_false]
        cases h : splitOnGo pat n s' <;> simp

/-- `splitOnL` never returns the empty list of segments. -/
theorem splitOnL_ne_nil (pat s : List Char) : splitOnL pat s ≠ [] :=
  splitOnGo_ne_nil pat s.length s

/-- Unfolding `splitOnL` at a match position. -/
theorem splitOnL_cons_match (pat : List Char) (c : Char) (s : List Char)
    (hp : pat <+: (c :: s)) (hT : pat ≠ []) :
    splitOnL pat (c :: s) = [] :: splitOnL pat ((c :: s).drop pat.length) := by
  have hb := matchCond_true hp hT
  have hpat : 0 < pat.length := List.length_pos.mpr hT
  show splitOnGo pat (s.length + 1) (c :: s) = _
  simp only [splitOnGo, hb, if_true]
  congr 1
  apply splitOnGo_congr
  · simp only [List.length_drop, List.length_cons]
    omega
  · exact Nat.le_refl _

/-- Unfolding `splitOnL` at a non-match position. -/
theorem splitOnL_cons_nomatch (pat : List Char) (c : Char) (s p : List Char)
    (ps : List (List Char)) (hp : ¬ pat <+: (c :: s)) (hsp : splitOnL pat s = p :: ps) :
    splitOnL pat (c :: s) = (c :: p) :: ps := by
  have hb := matchCond_false hp
  show splitOnGo pat (s.length + 1) (c :: s) = _
  simp only [splitOnGo, hb, Bool.false_eq_true, if_false]
  have hsp' : splitOnGo pat s.length s = p :: ps := hsp
  rw [hsp']

/-- The head segment of `splitOnL` is a prefix of the input. -/
theorem splitOnL_head_isPre (pat : List Char) (hT : pat ≠ []) :
    ∀ n s p ps, List.length s ≤ n → splitOnL pat s = p :: ps → p <+: s := by
  intro n
  induction n with
  | zero =>
    intro s p ps hn hsp
    have hs : s = [] := List.eq_nil_of_length_eq_zero (Nat.le_zero.mp hn)
    subst hs
    have h0 : ([] : List Char) :: [] = p :: ps := hsp
    injection h0 with h1 h2
    subst h1
    simp
  | succ n ih =>
    intro s p ps hn hsp
    cases s with
    | nil =>
      have h0 : ([] : List Char) :: [] = p :: ps := hsp
      injection h0 with h1 h2
      subst h1
      simp
    | cons c s' =>
      simp only [List.length_cons] at hn
      by_cases hp : pat <+: (c :: s')
      · rw [splitOnL_cons_match pat c s' hp hT] at hsp
        injection hsp with h1 h2
        subst h1
        simp
      · obtain ⟨r, rs, hr⟩ : ∃ r rs, splitOnL pat s' = r :: rs := by
          cases h : splitOnL pat s' with
          | nil => exact absurd h (splitOnL_ne_nil _ _)
          | cons r rs => exact ⟨r, rs, rfl⟩
        rw [splitOnL_cons_nomatch pat c s' r rs hp hr] at hsp
        injection hsp with h1 h2
        subst h1
        have hr' : r <+: s' := ih s' r rs (by omega) hr
        rw [List.cons_prefix_cons]
        exact ⟨rfl, hr'⟩

/-- Interleaving the segments with the pattern again rebuilds the input. -/
theorem joinWith_splitOnL (pat : List Char) (hT : pat ≠ []) :
    ∀ n s, List.length s ≤ n → joinWith pat (splitOnL pat s) = s := by
  intro n
  induction n with
  | zero =>
    intro s hn
    have hs : s = [] := List.eq_nil_of_length_eq_zero (Nat.le_zero.mp hn)
    subst hs
    rfl
  | succ n ih =>
    intro s hn
    cases s with
    | nil => rfl
    | cons c s' =>
      simp only [List.length_cons] at hn
      have hpat : 0 < pat.length := List.length_pos.mpr hT
      by_cases hp : pat <+: (c :: s')
      · rw [splitOnL_cons_match pat c s' hp hT]
        obtain ⟨r, rs, hr⟩ : ∃ r rs, splitOnL pat ((c :: s').drop pat.length) = r :: rs := by
          cases h : splitOnL pat ((c :: s').drop pat.length) with
          | nil => exact absurd h (splitOnL_ne_nil _ _)
          | cons r rs => exact ⟨r, rs, rfl⟩
        rw [hr]
        have hlen : ((c :: s').drop pat.length).length ≤ n := by
          simp only [List.length_drop, List.length_cons]
          omega
        have hih := ih ((c :: s').drop pat.length) hlen
        rw [hr] at hih
        show [] ++ pat ++ joinWith pat (r :: rs) = c :: s'
        rw [hih]
        simpa using List.prefix_iff_eq_append.mp hp
      · obtain ⟨r, rs, hr⟩ : ∃ r rs, splitOnL pat s' = r :: rs := by
          cases h : splitOnL pat s' with
          | nil => exact absurd h (splitOnL_ne_nil _ _)
          | cons r rs => exact ⟨r, rs, rfl⟩
        rw [splitOnL_cons_nomatch pat c s' r rs hp hr]
        have hih := ih s' (by omega)
        rw [hr] at hih
        cases rs with
        | nil =>
          show c :: r = c :: s'
          have : r = s' := hih
          rw [this]
        | cons q qs =>
          show (c :: r) ++ pat ++ joinWith pat (q :: qs) = c :: s'
          have : r ++ pat ++ joinWith pat (q :: qs) = s' := hih
          simpa using this

/-- `replaceAllL` interleaves the very same segments with the replacement. -/
theorem replaceAllL_eq_joinWith (pat rep : List Char) (hT : pat ≠ []) :
    ∀ n s, List.length s ≤ n →
      replaceAllL pat rep s = joinWith rep (splitOnL pat s) := by
  intro n
  induction n with
  | zero =>
    intro s hn
    have hs : s = [] := List.eq_nil_of_length_eq_zero (Nat.le_zero.mp hn)
    subst hs
    rfl
  | succ n ih =>
    intro s hn
    cases s with
    | nil => rfl
    | cons c s' =>
      simp only [List.length_cons] at hn
      have hpat : 0 < pat.length := List.length_pos.mpr hT
      by_cases hp : pat <+: (c :: s')
      · rw [splitOnL_cons_match pat c s' hp hT,
            replaceAllL_cons_match pat rep c s' hp hT]
        obtain ⟨r, rs, hr⟩ : ∃ r rs, splitOnL pat ((c :: s').drop pat.length) = r :: rs := by
          cases h : splitOnL pat ((c :: s').drop pat.length) with
          | nil => exact absurd h (splitOnL_ne_nil _ _)
          | cons r rs => exact ⟨r, rs, rfl⟩
        have hlen : ((c :: s').drop pat.length).length ≤ n := by
          simp only [List.length_drop, List.length_cons]
          omega
        have hih := ih ((c :: s').drop pat.length) hlen
        rw [hr] at hih ⊢
        show rep ++ replaceAllL pat rep ((c :: s').drop pat.length) =
          [] ++ rep ++ joinWith rep (r :: rs)
        rw [hih]
        simp
      · obtain ⟨r, rs, hr⟩ : ∃ r rs, splitOnL pat s' = r :: rs := by
          cases h : splitOnL pat s' with
          | nil => exact absurd h (splitOnL_ne_nil _ _)
          | cons r rs => exact ⟨r, rs, rfl⟩
        rw [splitOnL_cons_nomatch pat c s' r rs hp hr,
            replaceAllL_cons_nomatch pat rep c s' hp]
        have hih := ih s' (by omega)
        rw [hr] at hih
        cases rs with
        | nil =>
          show c :: replaceAllL pat rep s' = c :: r
          rw [hih]
          rfl
        | cons q qs =>
          show c :: replaceAllL pat rep s' = (c :: r) ++ rep ++ joinWith rep (q :: qs)
          rw [hih]
          simp [joinWith]

/-- No segment produced by `splitOnL` contains an occurrence of the pattern:
global replacement consumes every occurrence. -/
theorem splitOnL_pieces_clean (pat : List Char) (hT : pat ≠ []) :
    ∀ n s, List.length s ≤ n → ∀ p ∈ splitOnL pat s, ¬ pat <:+: p := by
  intro n
  induction n with
  | zero =>
    intro s hn p hmem hinf
    have hs : s = [] := List.eq_nil_of_length_eq_zero (Nat.le_zero.mp hn)
    subst hs
    have hp : p = [] := by simpa [splitOnL, splitOnGo] using hmem
    subst hp
    exact hT (List.eq_nil_of_infix_nil hinf)
  | succ n ih =>
    intro s hn p hmem hinf
    cases s with
    | nil =>
      have hp : p = [] := by simpa [splitOnL, splitOnGo] using hmem
      subst hp
      exact hT (List.eq_nil_of_infix_nil hinf)
    | cons c s' =>
      simp only [List.length_cons] at hn
      have hpat : 0 < pat.length := List.length_pos.mpr hT
      by_cases hp : pat <+: (c :: s')
      · rw [splitOnL_cons_match pat c s' hp hT] at hmem
        rcases List.mem_cons.mp hmem with h | h
        · subst h
          exact hT (List.eq_nil_of_infix_nil hinf)
        · have hlen : ((c :: s').drop pat.length).length ≤ n := by
            simp only [List.length_drop, List.length_cons]
            omega
          exact ih ((c :: s').drop pat.length) hlen p h hinf
      · obtain ⟨r, rs, hr⟩ : ∃ r rs, splitOnL pat s' = r :: rs := by
          cases h : splitOnL pat s' with
          | nil => exact absurd h (splitOnL_ne_nil _ _)
          | cons r rs => exact ⟨r, rs, rfl⟩
        rw [splitOnL_cons_nomatch pat c s' r rs hp hr] at hmem
        rcases List.mem_cons.mp hmem with h | h
        · subst h
          rcases List.infix_cons_iff.mp hinf with h' | h'
          · have hrr : r <+: s' :=
              splitOnL_head_isPre pat hT n s' r rs (by omega) hr
            have : pat <+: (c :: s') := by
              apply h'.trans
              rw [List.cons_prefix_cons]
              exact ⟨rfl, hrr⟩
            exact hp this
          · have : r ∈ splitOnL pat s' := by
              rw [hr]
              exact List.mem_cons_self _ _
            exact ih s' (by omega) r this h'
        · have : p ∈ splitOnL pat s' := by
            rw [hr]
            exact List.mem_cons_of_mem _ h
          exact ih s' (by omega) p this hinf

/-- Core lemma: if no nonempty suffix of the pattern is a prefix of the
replacement, no nonempty suffix of the replacement is a prefix of the
pattern, and neither is an infix of the other, then global replacement
leaves no occurrence of the pattern. The second conjunct is the invariant:
a nonempty suffix of the pattern starting the output already starts the
input. -/
theorem replaceAllL_no_token (T R : List Char) (hT : T ≠ [])
    (hTsufR : ∀ i, i < T.length → ¬ (T.drop i <+: R))
    (hRinfT : ¬ R <:+: T)
    (hRsufT : ∀ i, i < R.length → ¬ (R.drop i <+: T))
    (hTinfR : ¬ T <:+: R) :
    ∀ n s, List.length s ≤ n →
      (¬ T <:+: replaceAllL T R s) ∧
      (∀ i, i < T.length → T.drop i <+: replaceAllL T R s → T.drop i <+: s) := by
  intro n
  induction n with
  | zero =>
    intro s hn
    have hs : s = [] := List.eq_nil_of_length_eq_zero (Nat.le_zero.mp hn)
    subst hs
    constructor
    · intro h
      exact hT (List.eq_nil_of_infix_nil h)
    · intro i hi hpre
      have hnil : T.drop i = [] := List.eq_nil_of_prefix_nil hpre
      have := congrArg List.length hnil
      simp only [List.length_drop, List.length_nil] at this
      omega
  | succ n ih =>
    intro s hn
    cases s with
    | nil =>
      constructor
      · intro h
        exact hT (List.eq_nil_of_infix_nil h)
      · intro i hi hpre
        have hnil : T.drop i = [] := List.eq_nil_of_prefix_nil hpre
        have := congrArg List.length hnil
        simp only [List.length_drop, List.length_nil] at this
        omega
    | cons c s' =>
      simp only [List.length_cons] at hn
      have hpat : 0 < T.length := List.length_pos.mpr hT
      by_cases hp : T <+: (c :: s')
      · have hout : replaceAllL T R (c :: s') =
            R ++ replaceAllL T R ((c :: s').drop T.length) :=
          replaceAllL_cons_match T R c s' hp hT
        have hlen : ((c :: s').drop T.length).length ≤ n := by
          simp only [List.length_drop, List.length_cons]
          omega
        have IH := ih ((c :: s').drop T.length) hlen
        constructor
        · intro hinf
          rw [hout] at hinf
          rcases hinf with ⟨u, v, huv⟩
          rcases List.append_eq_append_iff.mp huv with ⟨a', ha1, ha2⟩ | ⟨c', hc1, hc2⟩
          · exact hTinfR ⟨u, a', ha1.symm⟩
          · rcases List.append_eq_append_iff.mp hc1 with ⟨w, hw1, hw2⟩ | ⟨w, hw1, hw2⟩
            · cases w with
              | nil =>
                have hTc' : T = c' := by simpa using hw2
                have : T <:+: replaceAllL T R ((c :: s').drop T.length) := by
                  refine ⟨[], v, ?_⟩
                  simp only [List.nil_append]
                  rw [hc2, hTc']
                exact IH.1 this
              | cons w0 w'' =>
                have hdrop : R.drop u.length = w0 :: w'' := by
                  rw [hw1, List.drop_left]
                have hult : u.length < R.length := by
                  have := congrArg List.length hw1
                  simp only [List.length_append, List.length_cons] at this
                  omega
                have hwT : (w0 :: w'') <+: T := ⟨c', hw2.symm⟩
                exact hRsufT u.length hult (hdrop ▸ hwT)
            · have : T <:+: replaceAllL T R ((c :: s').drop T.length) := by
                refine ⟨w, v, ?_⟩
                rw [hc2, hw2]
              exact IH.1 this
        · intro i hi hpre
          rw [hout] at hpre
          by_cases hil : (T.drop i).length ≤ R.length
          · have hdropR : T.drop i <+: R :=
              List.prefix_of_prefix_length_le hpre (List.prefix_append R _) hil
            exact absurd hdropR (hTsufR i hi)
          · have hRdrop : R <+: T.drop i :=
              List.prefix_of_prefix_length_le (List.prefix_append R _) hpre (by omega)
            rcases hRdrop with ⟨w, hw⟩
            have : R <:+: T := by
              refine ⟨T.take i, w, ?_⟩
              have hsplit := List.take_append_drop i T
              rw [List.append_assoc, hw, hsplit]
            exact absurd this hRinfT
      · have hout : replaceAllL T R (c :: s') = c :: replaceAllL T R s' :=
          replaceAllL_cons_nomatch T R c s' hp
        have IH := ih s' (by omega)
        constructor
        · intro hinf
          rw [hout] at hinf
          rcases List.infix_cons_iff.mp hinf with h' | h'
          · cases hTe : T with
            | nil => exact hT hTe
            | cons t0 T' =>
              rw [hTe, List.cons_prefix_cons] at h'
              obtain ⟨ht0, hT'⟩ := h'
              rw [← hTe] at hT'
              cases hT'e : T' with
              | nil =>
                apply hp
                rw [hTe, hT'e, ht0, List.cons_prefix_cons]
                simp
              | cons q0 q'' =>
                have h1lt : 1 < T.length := by
                  rw [hTe, hT'e]
                  simp only [List.length_cons]
                  omega
                have hdrop1 : T.drop 1 = T' := by rw [hTe]; rfl
                have hT'out : T.drop 1 <+: replaceAllL T R s' := by
                  rw [hdrop1]
                  exact hT'
                have hT's' : T.drop 1 <+: s' := IH.2 1 h1lt hT'out
                apply hp
                rw [hTe, ht0, List.cons_prefix_cons]
                refine ⟨rfl, ?_⟩
                rw [hdrop1] at hT's'
                exact hT's'
          · exact IH.1 h'
        · intro i hi hpre
          rw [hout] at hpre
          cases hd : T.drop i with
          | nil => simp [hd]
          | cons q0 q' =>
            rw [hd, List.cons_prefix_cons] at hpre
            obtain ⟨hq0, hq'⟩ := hpre
            have hq'eq : T.drop (i + 1) = q' := by
              rw [← List.tail_drop, hd]
              rfl
            by_cases hq'nil : q' = []
            · subst hq'nil
              rw [hq0, List.cons_prefix_cons]
              simp
            · have hq'len : 0 < q'.length := List.length_pos.mpr hq'nil
              have hi1 : i + 1 < T.length := by
                have := congrArg List.length hq'eq
                simp only [List.length_drop] at this
                omega
              have hq's' : T.drop (i + 1) <+: s' := by
                apply IH.2 (i + 1) hi1
                rw [hq'eq]
                exact hq'
              rw [hq0, List.cons_prefix_cons]
              refine ⟨rfl, ?_⟩
              rw [hq'eq] at hq's'
              exact hq's'

/-- A string with no occurrence of the (nonempty) pattern has count zero. -/
theorem countOcc_eq_zero_of_clean {pat : List Char} (hT : pat ≠ []) :
    ∀ s, ¬ pat <:+: s → countOcc pat s = 0 := by
  intro s
  induction s with
  | nil => intro _; rfl
  | cons c s' ih =>
    intro h
    have h1 : ¬ pat <+: (c :: s') := by
      intro hpp
      have hq : pat <:+: (c :: s') := List.IsPrefix.isInfix hpp
      exact h hq
    have h2 : ¬ pat <:+: s' := by
      intro hii
      have hq : pat <:+: (c :: s') := List.infix_cons hii
      exact h hq
    have hb : pat.isPrefixOf (c :: s') = false := by
      cases hh : pat.isPrefixOf (c :: s')
      · rfl
      · have hq : pat <+: (c :: s') := by
          simpa [ List.isPrefixOf_iff_prefix] using hh
        exact absurd hq h1
    simp [countOcc, hb, ih h2]

/-- For the repository's placeholder token and either supported LLM name,
global replacement rewrites the input as the interleaving of its token-free
segments with the LLM name, leaving zero occurrences of the token. -/
theorem token_replace_clean (rep : List Char)
    (hrep : rep = "GEMINI".data ∨ rep = "CLAUDE".data) (s : List Char) :
    countOcc llmAgentToken (replaceAllL llmAgentToken rep s) = 0 ∧
    joinWith llmAgentToken (splitOnL llmAgentToken s) = s ∧
    replaceAllL llmAgentToken rep s = joinWith rep (splitOnL llmAgentToken s) ∧
    (∀ p ∈ splitOnL llmAgentToken s, countOcc llmAgentToken p = 0) := by
  have hT : llmAgentToken ≠ [] := by decide
  have hjoin : joinWith llmAgentToken (splitOnL llmAgentToken s) = s :=
    joinWith_splitOnL llmAgentToken hT s.length s (Nat.le_refl _)
  have hpieces : ∀ p ∈ splitOnL llmAgentToken s, countOcc llmAgentToken p = 0 := by
    intro p hp
    exact countOcc_eq_zero_of_clean hT p
      (splitOnL_pieces_clean llmAgentToken hT s.length s (Nat.le_refl _) p hp)
  rcases hrep with h | h <;> subst h
  · have key := replaceAllL_no_token llmAgentToken "GEMINI".data hT
      (by decide) (by decide) (by decide) (by decide) s.length s (Nat.le_refl _)
    refine ⟨countOcc_eq_zero_of_clean hT _ key.1, hjoin, ?_, hpieces⟩
    exact replaceAllL_eq_joinWith llmAgentToken "GEMINI".data hT s.length s (Nat.le_refl _)
  · have key := replaceAllL_no_token llmAgentToken "CLAUDE".data hT
      (by decide) (by decide) (by decide) (by decide) s.length s (Nat.le_refl _)
    refine ⟨countOcc_eq_zero_of_clean hT _ key.1, hjoin, ?_, hpieces⟩
    exact replaceAllL_eq_joinWith llmAgentToken "CLAUDE".data hT s.length s (Nat.le_refl _)

/-! ### Generic file-system lemmas -/

/-- Peeling a successful `andThen`. -/
theorem andThen_ok {r : StepResult} {g : FS → StepResult} {f : FS}
    (h : r.andThen g = .ok f) : ∃ u, r = .ok u ∧ g u = .ok f := by
  cases r with
  | ok s => exact ⟨s, rfl, h⟩
  | err m s => simp [StepResult.andThen] at h

/-- A path headed by a different component is no prefix of an extension. -/
theorem isPre_append_eq_false {a b : String} (p' q' r : FPath) (hab : a ≠ b) :
    (a :: p').isPrefixOf ((b :: q') ++ r) = false := by
  simp [List.isPrefixOf, hab]

/-- Anything below a path headed by `a` is not below a path headed by `b ≠ a`. -/
theorem disjoint_by_heads {a b : String} (p' q' : FPath) (hba : b ≠ a) :
    ∀ e : FPath, (a :: p').isPrefixOf e = true → (b :: q').isPrefixOf e = false := by
  intro e he
  cases e with
  | nil => simp [List.isPrefixOf] at he
  | cons c e' =>
    simp only [List.isPrefixOf, Bool.and_eq_true, beq_iff_eq] at he
    have hac : a = c := he.1
    simp only [List.isPrefixOf, Bool.and_eq_false_iff]
    left
    rw [beq_eq_false_iff_ne]
    intro hbc
    exact hba (hbc.trans hac.symm)

/-- `existsSync` is stable under grafting more content. -/
theorem existsPath_graft_mono (s t : FS) (root p : FPath)
    (h : s.existsPath p = true) : (s.graft root t).existsPath p = true := by
  simp only [FS.existsPath, FS.graft, List.any_append, List.any_cons,
    Bool.or_eq_true] at h ⊢
  rcases h with h | h
  · left
    right
    right
    exact h
  · right
    right
    exact h

/-- Grafting under a disjoint root does not disturb the files below `p`. -/
theorem filesUnder_after_graft (s t : FS) (root p : FPath)
    (hfalse : ∀ x, p.isPrefixOf (root ++ x) = false) :
    (s.graft root t).filesUnder p = s.filesUnder p := by
  simp only [FS.filesUnder, FS.graft, List.filter_append]
  have hnil : (t.files.map (fun f => (root ++ f.1, f.2))).filter
      (fun f => p.isPrefixOf f.1) = [] := by
    rw [List.filter_eq_nil_iff]
    intro f hf
    rcases List.mem_map.mp hf with ⟨g, _, rfl⟩
    simp [hfalse g.1]
  rw [hnil, List.nil_append]

/-- Grafting under a disjoint root does not disturb the directories below `p`. -/
theorem dirsUnder_after_graft (s t : FS) (root p : FPath)
    (hfalse : ∀ x, p.isPrefixOf (root ++ x) = false) :
    (s.graft root t).dirsUnder p = s.dirsUnder p := by
  simp only [FS.dirsUnder, FS.graft, List.filter_append]
  have hnil : (t.dirs.map (fun d => root ++ d)).filter
      (fun d => p.isPrefixOf d) = [] := by
    rw [List.filter_eq_nil_iff]
    intro d hd
    rcases List.mem_map.mp hd with ⟨g, _, rfl⟩
    simp [hfalse g]
  have hroot : p.isPrefixOf root = false := by
    have := hfalse []
    rwa [List.append_nil] at this
  rw [hnil, List.nil_append, List.filter_cons, hroot]
  simp

/-- Deleting a subtree disjoint from `p` does not disturb the files below `p`. -/
theorem filesUnder_after_removeRec (s : FS) (q p : FPath)
    (h : ∀ e : FPath, p.isPrefixOf e = true → q.isPrefixOf e = false) :
    (s.removeRec q).filesUnder p = s.filesUnder p := by
  simp only [FS.filesUnder, FS.removeRec, List.filter_filter]
  apply List.filter_congr
  intro f _
  cases hpe : p.isPrefixOf f.1
  · simp
  · simp [h f.1 hpe]

/-- Deleting a subtree disjoint from `p` does not disturb the directories below `p`. -/
theorem dirsUnder_after_removeRec (s : FS) (q p : FPath)
    (h : ∀ e : FPath, p.isPrefixOf e = true → q.isPrefixOf e = false) :
    (s.removeRec q).dirsUnder p = s.dirsUnder p := by
  simp only [FS.dirsUnder, FS.removeRec, List.filter_filter]
  apply List.filter_congr
  intro d _
  cases hpe : p.isPrefixOf d
  · simp
  · simp [h d hpe]

/-- After `removeSync(q)`, the path `q` no longer exists. -/
theorem existsPath_removeRec_self (s : FS) (q : FPath) :
    (s.removeRec q).existsPath q = false := by
  simp only [FS.existsPath, FS.removeRec, Bool.or_eq_false_iff]
  constructor
  · rw [List.any_eq_false]
    intro d hd
    rcases List.mem_filter.mp hd with ⟨_, hcond⟩
    simp_all
  · rw [List.any_eq_false]
    intro f hf
    rcases List.mem_filter.mp hf with ⟨_, hcond⟩
    simp_all

/-! ### Argument-parsing lemmas -/

/-- What a successful parse guarantees: the name and language are passed
through, the llm is the uppercase normalization, and both choices hold. -/
theorem parseArguments_spec (langs : List String) (raw : RawArgs) (a : Args)
    (h : parseArguments langs raw = some a) :
    a.name = raw.name ∧ a.lang = raw.lang ∧
    a.llm = String.mk (raw.llm.data.map Char.toUpper) ∧
    langs.contains raw.lang = true ∧
    SUPPORTED_LLMS.contains (String.mk (raw.llm.data.map Char.toUpper)) = true := by
  unfold parseArguments at h
  by_cases hc : (langs.contains raw.lang &&
      SUPPORTED_LLMS.contains (String.mk (raw.llm.data.map Char.toUpper))) = true
  · rw [if_pos hc] at h
    injection h with h'
    subst h'
    have hc' := hc
    simp only [Bool.and_eq_true] at hc'
    exact ⟨rfl, rfl, rfl, hc'.1, hc'.2⟩
  · rw [if_neg hc] at h
    exact absurd h (by simp)

/-- A `lang` outside the discovered set or an `llm` whose uppercase
normalization is outside the fixed enumeration is rejected. -/
theorem parseArguments_rejects (langs : List String) (raw : RawArgs)
    (h : langs.contains raw.lang = false ∨
         SUPPORTED_LLMS.contains (String.mk (raw.llm.data.map Char.toUpper)) = false) :
    parseArguments langs raw = none := by
  have hb : (langs.contains raw.lang &&
      SUPPORTED_LLMS.contains (String.mk (raw.llm.data.map Char.toUpper))) = false := by
    rcases h with h | h
    · rw [h, Bool.false_and]
    · rw [h, Bool.and_false]
  simp only [parseArguments]
  rw [hb]
  simp

/-- A failing `mkdirSync` aborts the whole rest of a straight-line pipeline. -/
theorem mkdirStrict_exists_err (p : FPath) (s : FS) (g : FS → StepResult)
    (h : s.existsPath p = true) :
    (mkdirStrict p s).andThen g = .err "EEXIST" s := by
  simp [mkdirStrict, h, StepResult.andThen]

/-- The destination `cwd/<name>` is disjoint from the temp clone. -/
theorem dest_vs_tempDir (name : String) :
    ∀ x, (cwd ++ [name]).isPrefixOf (tempDir ++ x) = false := by
  intro x
  exact isPre_append_eq_false _ _ _ (by decide)

/-- Entries below the destination are not below the temp clone. -/
theorem dest_entries_vs_tempDir (name : String) :
    ∀ e : FPath, (cwd ++ [name]).isPrefixOf e = true →
      tempDir.isPrefixOf e = false := by
  intro e
  exact disjoint_by_heads _ _ (by decide) e

/-- The destination `cwd/<name>` is disjoint from the package tree. -/
theorem dest_vs_appRoot (name : String) :
    ∀ x, (cwd ++ [name]).isPrefixOf (appRoot ++ x) = false := by
  intro x
  exact isPre_append_eq_false _ _ _ (by decide)

/-- When the destination already exists, the simple script exits non-zero at
`mkdirSync` and the destination subtree is untouched. -/
theorem runSimple_destExists (repo : FS) (env : Env) (raw : RawArgs) (s0 : FS)
    (h : s0.existsPath (cwd ++ [raw.name]) = true) :
    (runSimple repo env raw s0).isOk = false ∧
    (runSimple repo env raw s0).finalState.filesUnder (cwd ++ [raw.name]) =
      s0.filesUnder (cwd ++ [raw.name]) ∧
    (runSimple repo env raw s0).finalState.dirsUnder (cwd ++ [raw.name]) =
      s0.dirsUnder (cwd ++ [raw.name]) := by
  have hfiles : (s0.graft tempDir repo).filesUnder (cwd ++ [raw.name]) =
      s0.filesUnder (cwd ++ [raw.name]) :=
    filesUnder_after_graft s0 repo tempDir _ (dest_vs_tempDir raw.name)
  have hdirs : (s0.graft tempDir repo).dirsUnder (cwd ++ [raw.name]) =
      s0.dirsUnder (cwd ++ [raw.name]) :=
    dirsUnder_after_graft s0 repo tempDir _ (dest_vs_tempDir raw.name)
  simp only [runSimple]
  by_cases hrules : (s0.graft tempDir repo).existsPath (tempDir ++ ["Rules"]) = true
  · rw [hrules]
    simp only [Bool.not_true, Bool.false_eq_true, if_false]
    cases hp : parseArguments
        (mdBasenames ((s0.graft tempDir repo).readdirNames (tempDir ++ ["Rules"]))) raw with
    | none =>
      exact ⟨rfl, hfiles, hdirs⟩
    | some a =>
      have hname : a.name = raw.name :=
        (parseArguments_spec _ raw a hp).1
      have hex : (s0.graft tempDir repo).existsPath (cwd ++ [a.name]) = true := by
        rw [hname]
        exact existsPath_graft_mono s0 repo tempDir _ h
      dsimp only
      rw [mkdirStrict_exists_err _ _ _ hex]
      exact ⟨rfl, hfiles, hdirs⟩
  · have hrules' : (s0.graft tempDir repo).existsPath (tempDir ++ ["Rules"]) = false :=
      eq_false_of_ne_true hrules
    rw [hrules']
    simp only [Bool.not_false, if_true]
    exact ⟨rfl, hfiles, hdirs⟩

/-- A failing `validateProjectDirectory` aborts the rest of the try block. -/
theorem validate_exists_err (p : FPath) (s : FS) (g : FS → StepResult)
    (h : s.existsPath p = true) :
    (validateProjectDirectory p s).andThen g = .err "Directory already exists" s := by
  simp [validateProjectDirectory, h, StepResult.andThen]

/-- When the destination already exists, the refactored script exits non-zero
at validation and the destination subtree is untouched (only the disjoint
temp clone location was written by the fetch step). -/
theorem runRefactored_destExists (repo : FS) (env : Env) (raw : RawArgs) (s0 : FS)
    (h : s0.existsPath (cwd ++ [raw.name]) = true) :
    (runRefactored repo env raw s0).isOk = false ∧
    (runRefactored repo env raw s0).finalState.filesUnder (cwd ++ [raw.name]) =
      s0.filesUnder (cwd ++ [raw.name]) ∧
    (runRefactored repo env raw s0).finalState.dirsUnder (cwd ++ [raw.name]) =
      s0.dirsUnder (cwd ++ [raw.name]) := by
  have hfiles : (s0.graft tempDir repo).filesUnder (cwd ++ [raw.name]) =
      s0.filesUnder (cwd ++ [raw.name]) :=
    filesUnder_after_graft s0 repo tempDir _ (dest_vs_tempDir raw.name)
  have hdirs : (s0.graft tempDir repo).dirsUnder (cwd ++ [raw.name]) =
      s0.dirsUnder (cwd ++ [raw.name]) :=
    dirsUnder_after_graft s0 repo tempDir _ (dest_vs_tempDir raw.name)
  simp only [runRefactored, runRefactoredTry]
  cases hg : getAvailableLanguages tempDir (s0.graft tempDir repo) with
  | error m =>
    dsimp only [StepResult.isOk, StepResult.finalState]
    exact ⟨rfl, hfiles, hdirs⟩
  | ok langs =>
    dsimp only
    cases hp : parseArguments langs raw with
    | none =>
      dsimp only [StepResult.isOk, StepResult.finalState]
      exact ⟨rfl, hfiles, hdirs⟩
    | some a =>
      have hname : a.name = raw.name := (parseArguments_spec _ raw a hp).1
      have hex : (s0.graft tempDir repo).existsPath (cwd ++ [a.name]) = true := by
        rw [hname]
        exact existsPath_graft_mono s0 repo tempDir _ h
      dsimp only
      rw [validate_exists_err _ _ _ hex]
      dsimp only [StepResult.isOk, StepResult.finalState]
      exact ⟨rfl, hfiles, hdirs⟩

/-- When the destination already exists, the legacy script exits non-zero at
`mkdirSync` and the destination subtree is untouched. -/
theorem runLocal_destExists (tpl : FS) (env : Env) (raw : RawArgs) (s0 : FS)
    (h : s0.existsPath (cwd ++ [raw.name]) = true) :
    (runLocal tpl env raw s0).isOk = false ∧
    (runLocal tpl env raw s0).finalState.filesUnder (cwd ++ [raw.name]) =
      s0.filesUnder (cwd ++ [raw.name]) ∧
    (runLocal tpl env raw s0).finalState.dirsUnder (cwd ++ [raw.name]) =
      s0.dirsUnder (cwd ++ [raw.name]) := by
  have hfiles : (s0.graft appRoot tpl).filesUnder (cwd ++ [raw.name]) =
      s0.filesUnder (cwd ++ [raw.name]) :=
    filesUnder_after_graft s0 tpl appRoot _ (dest_vs_appRoot raw.name)
  have hdirs : (s0.graft appRoot tpl).dirsUnder (cwd ++ [raw.name]) =
      s0.dirsUnder (cwd ++ [raw.name]) :=
    dirsUnder_after_graft s0 tpl appRoot _ (dest_vs_appRoot raw.name)
  simp only [runLocal]
  by_cases hrules : (s0.graft appRoot tpl).existsPath (appRoot ++ ["Rules"]) = true
  · rw [hrules]
    simp only [Bool.not_true, Bool.false_eq_true, if_false]
    cases hp : parseArguments
        (mdBasenames ((s0.graft appRoot tpl).readdirNames (appRoot ++ ["Rules"]))) raw with
    | none =>
      exact ⟨rfl, hfiles, hdirs⟩
    | some a =>
      have hname : a.name = raw.name := (parseArguments_spec _ raw a hp).1
      have hex : (s0.graft appRoot tpl).existsPath (cwd ++ [a.name]) = true := by
        rw [hname]
        exact existsPath_graft_mono s0 tpl appRoot _ h
      dsimp only
      rw [mkdirStrict_exists_err _ _ _ hex]
      exact ⟨rfl, hfiles, hdirs⟩
  · have hrules' : (s0.graft appRoot tpl).existsPath (appRoot ++ ["Rules"]) = false :=
      eq_false_of_ne_true hrules
    rw [hrules']
    simp only [Bool.not_false, if_true]
    exact ⟨rfl, hfiles, hdirs⟩

/-- On the success path, the simple script's last action removed the clone. -/
theorem runSimple_ok_cleanup (repo : FS) (env : Env) (raw : RawArgs) (s0 : FS) (f : FS)
    (h : runSimple repo env raw s0 = .ok f) : f.existsPath tempDir = false := by
  simp only [runSimple] at h
  by_cases hrules : (s0.graft tempDir repo).existsPath (tempDir ++ ["Rules"]) = true
  · rw [hrules] at h
    simp only [Bool.not_true, Bool.false_eq_true, if_false] at h
    cases hp : parseArguments
        (mdBasenames ((s0.graft tempDir repo).readdirNames (tempDir ++ ["Rules"]))) raw with
    | none =>
      rw [hp] at h
      exact absurd h (by simp)
    | some a =>
      rw [hp] at h
      dsimp only at h
      obtain ⟨s2, _, h⟩ := andThen_ok h
      obtain ⟨s3, _, h⟩ := andThen_ok h
      obtain ⟨s4, _, h⟩ := andThen_ok h
      obtain ⟨s5, _, h⟩ := andThen_ok h
      obtain ⟨s6, _, h⟩ := andThen_ok h
      obtain ⟨s7, _, h⟩ := andThen_ok h
      obtain ⟨s8, _, h⟩ := andThen_ok h
      obtain ⟨s9, _, h⟩ := andThen_ok h
      obtain ⟨s10, _, h⟩ := andThen_ok h
      obtain ⟨s11, _, h⟩ := andThen_ok h
      obtain ⟨s12, _, h⟩ := andThen_ok h
      have hf : f = s12.removeRec tempDir := by
        injection h with h'
        exact h'.symm
      rw [hf]
      exact existsPath_removeRec_self s12 tempDir
  · rw [eq_false_of_ne_true hrules] at h
    simp only [Bool.not_false, if_true] at h
    exact absurd h (by simp)

/-- On a successful refactored run the finally block removes the clone. -/
theorem runRefactored_ok_cleanup (repo : FS) (env : Env) (raw : RawArgs) (s0 : FS)
    (f : FS) (h : runRefactored repo env raw s0 = .ok f) :
    f.existsPath tempDir = false := by
  simp only [runRefactored] at h
  cases htry : runRefactoredTry repo env raw s0 with
  | ok s =>
    rw [htry] at h
    dsimp only [cleanupTempDirectory] at h
    injection h with h'
    rw [← h']
    exact existsPath_removeRec_self s tempDir
  | err m s =>
    rw [htry] at h
    exact absurd h (by simp)

/-! ### Claims -/

/-- C2 counterexample: runs of both clone-based scripts in which the
temporary clone was created (the clone is unconditional) and a later step
failed (the destination `myapp` already exists): each process exits non-zero
with the temporary clone directory still on disk — in the simple script the
`fs.removeSync(tempDir)` line is never reached, and in the refactored script
`process.exit(1)` inside the catch block terminates the process before the
finally block runs — refuting "the temporary clone directory no longer exists
once the process has exited ... when any later step fails". -/
theorem C2_cleanup_counterexample :
    ((runSimple templateRepo envOk rawPyGemini occupiedState).isOk = false ∧
     (runSimple templateRepo envOk rawPyGemini occupiedState).finalState.existsPath
       tempDir = true) ∧
    ((runRefactored templateRepo envOk rawPyGemini occupiedState).isOk = false ∧
     (runRefactored templateRepo envOk rawPyGemini occupiedState).finalState.existsPath
       tempDir = true) := by
  decide

/-- C2 amended: in both clone-based scripts the temporary clone directory is
removed exactly when the whole run succeeds — every successful run ends with
the clone gone, while a failure after the clone leaves it on disk (the simple
script never reaches its cleanup line; the refactored script's
`process.exit(1)` in the catch skips the finally block). -/
theorem C2_cleanup_amended :
    (∀ repo env raw s0 f, runSimple repo env raw s0 = .ok f →
      f.existsPath tempDir = false) ∧
    (∀ repo env raw s0 f, runRefactored repo env raw s0 = .ok f →
      f.existsPath tempDir = false) := by
  constructor
  · intro repo env raw s0 f h
    exact runSimple_ok_cleanup repo env raw s0 f h
  · intro repo env raw s0 f h
    exact runRefactored_ok_cleanup repo env raw s0 f h

/-- C2 witness: the amended claim applied to concrete successful runs of the
simple and the refactored script. -/
theorem C2_cleanup_amended_witness :
    ((runSimple templateRepo envOk rawPyGemini baseState).finalState).existsPath
      tempDir = false ∧
    ((runRefactored templateRepo envOk rawPyGemini baseState).finalState).existsPath
      tempDir = false :=
  ⟨C2_cleanup_amended.1 templateRepo envOk rawPyGemini baseState _ (by decide),
   C2_cleanup_amended.2 templateRepo envOk rawPyGemini baseState _ (by decide)⟩

/-- C3: for every initial file system in which the destination `cwd/<name>`
already exists (as a file or a directory), each of the three scripts exits
non-zero and leaves every file and directory at or below the destination
exactly as it was: no overwrite, no merge, no write below the destination. -/
theorem C3_dest_exists_no_mutation (repo tpl : FS) (env : Env) (raw : RawArgs)
    (s0 : FS) (h : s0.existsPath (cwd ++ [raw.name]) = true) :
    ((runSimple repo env raw s0).isOk = false ∧
     (runSimple repo env raw s0).finalState.filesUnder (cwd ++ [raw.name]) =
       s0.filesUnder (cwd ++ [raw.name]) ∧
     (runSimple repo env raw s0).finalState.dirsUnder (cwd ++ [raw.name]) =
       s0.dirsUnder (cwd ++ [raw.name])) ∧
    ((runRefactored repo env raw s0).isOk = false ∧
     (runRefactored repo env raw s0).finalState.filesUnder (cwd ++ [raw.name]) =
       s0.filesUnder (cwd ++ [raw.name]) ∧
     (runRefactored repo env raw s0).finalState.dirsUnder (cwd ++ [raw.name]) =
       s0.dirsUnder (cwd ++ [raw.name])) ∧
    ((runLocal tpl env raw s0).isOk = false ∧
     (runLocal tpl env raw s0).finalState.filesUnder (cwd ++ [raw.name]) =
       s0.filesUnder (cwd ++ [raw.name]) ∧
     (runLocal tpl env raw s0).finalState.dirsUnder (cwd ++ [raw.name]) =
       s0.dirsUnder (cwd ++ [raw.name])) :=
  ⟨runSimple_destExists repo env raw s0 h,
   runRefactored_destExists repo env raw s0 h,
   runLocal_destExists tpl env raw s0 h⟩

/-- C3 witness: the occupied destination `myapp` with a file inside, against
all three scripts on the concrete fixtures. -/
theorem C3_dest_exists_no_mutation_witness :
    occupiedState.existsPath (cwd ++ [rawPyGemini.name]) = true ∧
    ((runSimple templateRepo envOk rawPyGemini occupiedState).isOk = false ∧
     (runSimple templateRepo envOk rawPyGemini occupiedState).finalState.filesUnder
       (cwd ++ [rawPyGemini.name]) = occupiedState.filesUnder (cwd ++ [rawPyGemini.name]) ∧
     (runSimple templateRepo envOk rawPyGemini occupiedState).finalState.dirsUnder
       (cwd ++ [rawPyGemini.name]) = occupiedState.dirsUnder (cwd ++ [rawPyGemini.name])) ∧
    ((runRefactored templateRepo envOk rawPyGemini occupiedState).isOk = false ∧
     (runRefactored templateRepo envOk rawPyGemini occupiedState).finalState.filesUnder
       (cwd ++ [rawPyGemini.name]) = occupiedState.filesUnder (cwd ++ [rawPyGemini.name]) ∧
     (runRefactored templateRepo envOk rawPyGemini occupiedState).finalState.dirsUnder
       (cwd ++ [rawPyGemini.name]) = occupiedState.dirsUnder (cwd ++ [rawPyGemini.name])) ∧
    ((runLocal localTemplate envOk rawPyGemini occupiedState).isOk = false ∧
     (runLocal localTemplate envOk rawPyGemini occupiedState).finalState.filesUnder
       (cwd ++ [rawPyGemini.name]) = occupiedState.filesUnder (cwd ++ [rawPyGemini.name]) ∧
     (runLocal localTemplate envOk rawPyGemini occupiedState).finalState.dirsUnder
       (cwd ++ [rawPyGemini.name]) = occupiedState.dirsUnder (cwd ++ [rawPyGemini.name])) :=
  ⟨by decide,
   C3_dest_exists_no_mutation templateRepo localTemplate envOk rawPyGemini
     occupiedState (by decide)⟩

/-! ### How each step affects `readFile` -/

/-- `find?` skips a filter that keeps everything it could find. -/
theorem find?_filter_of_imp {α : Type} (p g : α → Bool) (l : List α)
    (h : ∀ x, p x = true → g x = true) :
    (l.filter g).find? p = l.find? p := by
  induction l with
  | nil => rfl
  | cons a l ih =>
    cases hg : g a
    · have hp : p a = false := by
        cases hp : p a
        · rfl
        · rw [h a hp] at hg
          exact absurd hg (by simp)
      rw [List.filter_cons_of_neg (by simp [hg]), ih,
        List.find?_cons_of_neg _ (by simp [hp])]
    · rw [List.filter_cons_of_pos (by simp [hg])]
      cases hp : p a
      · rw [List.find?_cons_of_neg _ (by simp [hp]),
          List.find?_cons_of_neg _ (by simp [hp]), ih]
      · rw [List.find?_cons_of_pos _ (by simp [hp]),
          List.find?_cons_of_pos _ (by simp [hp])]

/-- `readFile` only looks at the files. -/
theorem readFile_congr_files (s t : FS) (q : FPath) (h : t.files = s.files) :
    t.readFile q = s.readFile q := by
  simp [FS.readFile, h]

/-- Writing another file does not change what `readFile q` sees. -/
theorem readFile_writeFile_ne (s : FS) (pth q : FPath) (c : List Char)
    (h : pth ≠ q) :
    (s.writeFile pth c).readFile q = s.readFile q := by
  simp only [FS.readFile, FS.writeFile]
  rw [List.find?_cons_of_neg _ (by simp [h])]
  rw [find?_filter_of_imp]
  intro x hx
  simp only [beq_iff_eq] at hx
  simp [hx, Ne.symm h]

/-- Reading back exactly what was written. -/
theorem readFile_writeFile_self (s : FS) (pth : FPath) (c : List Char) :
    (s.writeFile pth c).readFile pth = some c := by
  simp [FS.readFile, FS.writeFile]

/-- A copy whose destination does not reach `q` does not change `readFile q`. -/
theorem readFile_copyRec_outside (s : FS) (src dst q : FPath)
    (h : dst.isPrefixOf q = false) :
    (s.copyRec src dst).readFile q = s.readFile q := by
  simp only [FS.readFile, FS.copyRec, List.find?_append]
  have hmv : ∀ m ∈ s.files.filterMap (fun f =>
      if src.isPrefixOf f.1 then some (dst ++ f.1.drop src.length, f.2) else none),
      (m.1 == q) = false := by
    intro m hm
    rcases List.mem_filterMap.mp hm with ⟨f, _, hf⟩
    by_cases hsp : src.isPrefixOf f.1 = true
    · rw [if_pos hsp] at hf
      injection hf with hf'
      subst hf'
      simp only [beq_eq_false_iff_ne]
      intro he
      have : dst.isPrefixOf (dst ++ f.1.drop src.length) = true := by
        have : dst <+: dst ++ f.1.drop src.length := List.prefix_append _ _
        simpa [ List.isPrefixOf_iff_prefix] using this
      rw [he] at this
      rw [this] at h
      exact absurd h (by simp)
    · rw [if_neg hsp] at hf
      exact absurd hf (by simp)
  have h1 : (s.files.filterMap (fun f =>
      if src.isPrefixOf f.1 then some (dst ++ f.1.drop src.length, f.2) else none)).find?
        (fun f => f.1 == q) = none := by
    rw [List.find?_eq_none]
    intro m hm
    simp [hmv m hm]
  rw [h1]
  simp only [Option.none_or]
  rw [find?_filter_of_imp]
  intro x hx
  simp only [beq_iff_eq] at hx
  rw [List.all_eq_true]
  intro m hm
  simp [hx, hmv m hm]

/-- Removing a subtree that does not reach `q` does not change `readFile q`. -/
theorem readFile_removeRec_outside (s : FS) (rt q : FPath)
    (h : rt.isPrefixOf q = false) :
    (s.removeRec rt).readFile q = s.readFile q := by
  simp only [FS.readFile, FS.removeRec]
  rw [find?_filter_of_imp]
  intro x hx
  simp only [beq_iff_eq] at hx
  simp [hx, h]

/-- Creating a directory never changes `readFile`. -/
theorem readFile_mkdirAt (s : FS) (p q : FPath) :
    (s.mkdirAt p).readFile q = s.readFile q := rfl

/-- A longer path cannot be a prefix when a shorter one is not. -/
theorem prefix_extend_false (p r q : FPath) (h : p.isPrefixOf q = false) :
    (p ++ r).isPrefixOf q = false := by
  cases hb : (p ++ r).isPrefixOf q
  · rfl
  · have h1 : (p ++ r) <+: q := by
      simpa [ List.isPrefixOf_iff_prefix] using hb
    have h2 : p <+: q := List.IsPrefix.trans (List.prefix_append p r) h1
    have : p.isPrefixOf q = true := by
      simpa [ List.isPrefixOf_iff_prefix] using h2
    rw [this] at h
    exact absurd h (by simp)

/-! ### Destructuring each step's successful outcome -/

/-- A successful strict `mkdirSync`. -/
theorem mkdirStrict_ok (p : FPath) (s t : FS) (h : mkdirStrict p s = .ok t) :
    s.existsPath p = false ∧ t = s.mkdirAt p := by
  unfold mkdirStrict at h
  by_cases he : s.existsPath p = true
  · rw [if_pos he] at h
    exact absurd h (by simp)
  · rw [if_neg he] at h
    injection h with h'
    exact ⟨eq_false_of_ne_true he, h'.symm⟩

/-- A successful `copySync`. -/
theorem copySyncStep_ok (src dst : FPath) (s t : FS)
    (h : copySyncStep src dst s = .ok t) :
    s.existsPath src = true ∧ t = s.copyRec src dst := by
  unfold copySyncStep at h
  by_cases he : s.existsPath src = true
  · rw [if_pos he] at h
    injection h with h'
    exact ⟨he, h'.symm⟩
  · rw [if_neg he] at h
    exact absurd h (by simp)

/-- A successful PRP-template configuration either does nothing or writes
the generic template path. -/
theorem configurePRPTemplateIn_ok (assets : String) (projectDir : FPath)
    (language llm : String) (s t : FS)
    (h : configurePRPTemplateIn assets projectDir language llm s = .ok t) :
    t = s ∨ ∃ c, t = s.writeFile (projectDir ++ [assets, "templates", "prp_template.md"]) c := by
  unfold configurePRPTemplateIn at h
  by_cases he : s.existsPath
      (projectDir ++ [assets, "templates", "prp_template_" ++ language ++ ".md"]) = true
  · rw [if_pos he] at h
    cases hr : s.readFile
        (projectDir ++ [assets, "templates", "prp_template_" ++ language ++ ".md"]) with
    | none =>
      rw [hr] at h
      exact absurd h (by simp)
    | some c =>
      rw [hr] at h
      injection h with h'
      exact Or.inr ⟨replaceAllL llmAgentToken llm.data c, h'.symm⟩
  · rw [if_neg he] at h
    injection h with h'
    exact Or.inl h'.symm

/-- A successful swapped-arguments rules step either does nothing or writes
into the template clone's Rules file. -/
theorem applyLangRulesSwapped_ok (templateDir projectDir : FPath)
    (language llm : String) (s t : FS)
    (h : applyLangRulesSwapped templateDir projectDir language llm s = .ok t) :
    t = s ∨ ∃ c, t = s.writeFile (templateDir ++ ["Rules", language ++ ".md"]) c := by
  unfold applyLangRulesSwapped at h
  by_cases he : s.existsPath (templateDir ++ ["Rules", language ++ ".md"]) = true
  · rw [if_pos he] at h
    cases hr : s.readFile (templateDir ++ ["Rules", language ++ ".md"]) with
    | none =>
      rw [hr] at h
      exact absurd h (by simp)
    | some c =>
      rw [hr] at h
      by_cases hl : (llm == "GEMINI") = true
      · rw [if_pos hl] at h
        injection h with h'
        exact Or.inr ⟨_, h'.symm⟩
      · rw [if_neg hl] at h
        injection h with h'
        exact Or.inr ⟨_, h'.symm⟩
  · rw [if_neg he] at h
    injection h with h'
    exact Or.inl h'.symm

/-- A successful refactored rules step either does nothing or writes the
destination's `<llm>.md`. -/
theorem applyLanguageRules_ok (templateDir projectDir : FPath)
    (language llm : String) (s t : FS)
    (h : applyLanguageRules templateDir projectDir language llm s = .ok t) :
    t = s ∨ ∃ c, t = s.writeFile (projectDir ++ [llm ++ ".md"]) c := by
  unfold applyLanguageRules at h
  by_cases he : s.existsPath (templateDir ++ ["Rules", language ++ ".md"]) = true
  · rw [if_pos he] at h
    cases hr : s.readFile (templateDir ++ ["Rules", language ++ ".md"]) with
    | none =>
      rw [hr] at h
      exact absurd h (by simp)
    | some c =>
      rw [hr] at h
      injection h with h'
      exact Or.inr ⟨c, h'.symm⟩
  · rw [if_neg he] at h
    injection h with h'
    exact Or.inl h'.symm

/-- A successful `gitInitAt` adds the `.git` directory. -/
theorem gitInitAt_ok (env : Env) (dir : FPath) (s t : FS)
    (h : gitInitAt env dir s = .ok t) :
    env.gitOk = true ∧ t = s.mkdirAt (dir ++ [".git"]) := by
  unfold gitInitAt at h
  by_cases hg : env.gitOk = true
  · rw [if_pos hg] at h
    injection h with h'
    exact ⟨hg, h'.symm⟩
  · rw [if_neg hg] at h
    exact absurd h (by simp)

/-- `initializeProjectStructure` never fails and never touches files. -/
theorem initializeProjectStructure_ok (env : Env) (projectDir : FPath)
    (projectName : String) (s t : FS)
    (h : initializeProjectStructure env projectDir projectName s = .ok t) :
    t.files = s.files ∧
    (env.gitOk = true →
      t = (s.mkdirAt (projectDir ++ [projectName])).mkdirAt
            (projectDir ++ [projectName] ++ [".git"])) := by
  simp only [initializeProjectStructure, gitInitAt] at h
  by_cases hg : env.gitOk = true
  · rw [if_pos hg] at h
    dsimp only at h
    injection h with h'
    subst h'
    exact ⟨rfl, fun _ => rfl⟩
  · rw [if_neg hg] at h
    dsimp only at h
    injection h with h'
    subst h'
    exact ⟨rfl, fun hg' => absurd hg' hg⟩

/-- Iterated conditional copies into disjoint targets preserve `readFile q`. -/
theorem foldl_copy_readFile (tD pD : FPath) (names : List String) (q : FPath)
    (h : ∀ x ∈ names, (pD ++ [x]).isPrefixOf q = false) :
    ∀ s : FS,
      (names.foldl (fun acc d =>
        if acc.existsPath (tD ++ [d]) then acc.copyRec (tD ++ [d]) (pD ++ [d]) else acc)
        s).readFile q = s.readFile q := by
  induction names with
  | nil => intro s; rfl
  | cons d ds ih =>
    intro s
    rw [List.foldl_cons]
    have hd := h d (by simp)
    have hds : ∀ x ∈ ds, (pD ++ [x]).isPrefixOf q = false := by
      intro x hx
      exact h x (by simp [hx])
    by_cases he : s.existsPath (tD ++ [d]) = true
    · rw [if_pos he, ih hds]
      exact readFile_copyRec_outside s _ _ q hd
    · rw [if_neg he, ih hds]

/-- Iterated removals below a directory that does not reach `q` preserve
`readFile q`. -/
theorem foldl_remove_readFile (tD : FPath) (names : List String) (q : FPath)
    (h : tD.isPrefixOf q = false) :
    ∀ s : FS,
      (names.foldl (fun acc file =>
        if file == "prp_template.md" then acc else acc.removeRec (tD ++ [file]))
        s).readFile q = s.readFile q := by
  induction names with
  | nil => intro s; rfl
  | cons d ds ih =>
    intro s
    rw [List.foldl_cons]
    by_cases he : (d == "prp_template.md") = true
    · rw [if_pos he, ih]
    · rw [if_neg he, ih]
      exact readFile_removeRec_outside s _ q (prefix_extend_false tD [d] q h)

/-- `copyCoreDiretories` preserves `readFile q` off its two targets. -/
theorem copyCoreDiretories_ok (tD pD : FPath) (s t : FS) (q : FPath)
    (h : copyCoreDiretories tD pD s = .ok t)
    (h1 : (pD ++ [".context"]).isPrefixOf q = false)
    (h2 : (pD ++ ["examples"]).isPrefixOf q = false) :
    t.readFile q = s.readFile q := by
  unfold copyCoreDiretories at h
  injection h with h'
  rw [← h']
  apply foldl_copy_readFile
  intro x hx
  rcases List.mem_cons.mp hx with hx | hx
  · rw [hx]
    exact h1
  · rcases List.mem_cons.mp hx with hx | hx
    · rw [hx]
      exact h2
    · exact absurd hx (by simp)

/-- `copyRequiredFiles` preserves `readFile q` off its three targets. -/
theorem copyRequiredFiles_ok (tD pD : FPath) (s t : FS) (q : FPath)
    (h : copyRequiredFiles tD pD s = .ok t)
    (h1 : ∀ x ∈ REQUIRED_FILES, (pD ++ [x]).isPrefixOf q = false) :
    t.readFile q = s.readFile q := by
  unfold copyRequiredFiles at h
  injection h with h'
  rw [← h']
  exact foldl_copy_readFile tD pD REQUIRED_FILES q h1 s

/-- `copyLLMFile` preserves `readFile q` off its target. -/
theorem copyLLMFile_ok (tD pD : FPath) (llm : String) (s t : FS) (q : FPath)
    (h : copyLLMFile tD pD llm s = .ok t)
    (h1 : (pD ++ [llm ++ ".md"]).isPrefixOf q = false) :
    t.readFile q = s.readFile q := by
  unfold copyLLMFile at h
  injection h with h'
  rw [← h']
  by_cases he : s.existsPath (tD ++ [llm ++ ".md"]) = true
  · rw [if_pos he]
    exact readFile_copyRec_outside s _ _ q h1
  · rw [if_neg he]

/-- `cleanupTemplateFiles` preserves `readFile q` outside `.context/templates`. -/
theorem cleanupTemplateFiles_ok (pD : FPath) (s t : FS) (q : FPath)
    (h : cleanupTemplateFiles pD s = .ok t)
    (h1 : (pD ++ [".context", "templates"]).isPrefixOf q = false) :
    t.readFile q = s.readFile q := by
  simp only [cleanupTemplateFiles] at h
  by_cases he : s.existsPath (pD ++ [".context", "templates"]) = true
  · rw [he] at h
    simp only [Bool.not_true, Bool.false_eq_true, if_false] at h
    injection h with h'
    rw [← h']
    exact foldl_remove_readFile _ _ q h1 s
  · rw [eq_false_of_ne_true he] at h
    simp only [Bool.not_false, if_true] at h
    injection h with h'
    rw [← h']

/-- If nothing exists at or below `p`, no file can be read below `p`. -/
theorem readFile_none_of_not_existsPath (s : FS) (p q : FPath)
    (hpre : p.isPrefixOf q = true) (h : s.existsPath p = false) :
    s.readFile q = none := by
  cases hfind : s.files.find? (fun f => f.1 == q) with
  | none =>
    simp [FS.readFile, hfind]
  | some fc =>
    exfalso
    have hmem := List.mem_of_find?_eq_some hfind
    have heq : fc.1 = q := by
      have := List.find?_some hfind
      simpa using this
    simp only [FS.existsPath, Bool.or_eq_false_iff] at h
    have h2 := h.2
    rw [List.any_eq_false] at h2
    apply h2 fc hmem
    rw [heq]
    exact hpre

/-- The destination directory reaches each of its direct entries. -/
theorem dest_reaches_child (n x : String) :
    (cwd ++ [n]).isPrefixOf (cwd ++ [n, x]) = true := by
  simp [cwd, List.isPrefixOf]

/-- A direct destination entry named `y` does not reach the one named `x ≠ y`. -/
theorem destFile_not_isPre (n x y : String) (hxy : x ≠ y) :
    ((cwd ++ [n]) ++ [y]).isPrefixOf (cwd ++ [n, x]) = false := by
  simp only [cwd, List.cons_append, List.nil_append, List.append_assoc,
    List.isPrefixOf, Bool.and_eq_false_iff, beq_eq_false_iff_ne]
  simp [List.isPrefixOf]
  intro hyx
  exact absurd hyx.symm hxy

/-- Direct destination entries with different names are different paths. -/
theorem destFile_ne (n x y : String) (hxy : y ≠ x) :
    (cwd ++ [n]) ++ [y] ≠ cwd ++ [n, x] := by
  intro he
  simp [cwd] at he
  exact hxy he

/-- A path from a differently-headed root is never a destination entry. -/
theorem rooted_ne_dest {a : String} (p r : FPath) (n x : String)
    (ha : a ≠ "home") :
    (a :: p) ++ r ≠ cwd ++ [n, x] := by
  intro he
  rw [List.cons_append] at he
  have : a = "home" := by
    have := congrArg List.head? he
    simpa [cwd] using this
  exact ha this

/-- A longer path is no prefix of a shorter one. -/
theorem prefix_longer_false (p q : FPath) (h : q.length < p.length) :
    p.isPrefixOf q = false := by
  cases hb : p.isPrefixOf q
  · rfl
  · have hpre : p <+: q := by
      simpa [ List.isPrefixOf_iff_prefix] using hb
    have := List.IsPrefix.length_le hpre
    omega

/-- A successful validation means the destination was absent and unchanged. -/
theorem validateProjectDirectory_ok (p : FPath) (s t : FS)
    (h : validateProjectDirectory p s = .ok t) :
    s.existsPath p = false ∧ t = s := by
  unfold validateProjectDirectory at h
  by_cases he : s.existsPath p = true
  · rw [if_pos he] at h
    exact absurd h (by simp)
  · rw [if_neg he] at h
    injection h with h'
    exact ⟨eq_false_of_ne_true he, h'.symm⟩

/-- `createProjectDirectory` just creates the directory. -/
theorem createProjectDirectory_ok (p : FPath) (s t : FS)
    (h : createProjectDirectory p s = .ok t) : t = s.mkdirAt p := by
  unfold createProjectDirectory at h
  injection h with h'
  exact h'.symm

/-- The two members of the fixed LLM enumeration. -/
theorem supported_cases (llm : String) (h : SUPPORTED_LLMS.contains llm = true) :
    llm = "GEMINI" ∨ llm = "CLAUDE" := by
  simpa [SUPPORTED_LLMS] using h

/-- A successful simple-script run creates no destination file except the
five copied root files, the selected branding file and the `.context` and
`examples` subtrees: any other direct destination entry reads as absent. -/
theorem runSimple_file_absent (repo : FS) (env : Env) (raw : RawArgs)
    (s0 : FS) (f : FS) (x : String)
    (h : runSimple repo env raw s0 = .ok f)
    (hx1 : x ≠ ".context") (hx2 : x ≠ "examples")
    (hx3 : x ≠ "INITIAL_EXAMPLE.md") (hx4 : x ≠ "INITIAL.md") (hx5 : x ≠ "README.md")
    (hx6 : x ≠ String.mk (raw.llm.data.map Char.toUpper) ++ ".md") :
    f.readFile (cwd ++ [raw.name, x]) = none := by
  simp only [runSimple] at h
  by_cases hrules : (s0.graft tempDir repo).existsPath (tempDir ++ ["Rules"]) = true
  swap
  · rw [eq_false_of_ne_true hrules] at h
    simp only [Bool.not_false, if_true] at h
    exact absurd h (by simp)
  rw [hrules] at h
  simp only [Bool.not_true, Bool.false_eq_true, if_false] at h
  cases hp : parseArguments
      (mdBasenames ((s0.graft tempDir repo).readdirNames (tempDir ++ ["Rules"]))) raw with
  | none =>
    rw [hp] at h
    exact absurd h (by simp)
  | some a =>
    rw [hp] at h
    dsimp only at h
    obtain ⟨hname, hlang, hllm, hclang, hcllm⟩ := parseArguments_spec _ raw a hp
    rw [← hname]
    rw [← hllm] at hx6 hcllm
    obtain ⟨s2, h1, h⟩ := andThen_ok h
    obtain ⟨s3, h2, h⟩ := andThen_ok h
    obtain ⟨s4, h3, h⟩ := andThen_ok h
    obtain ⟨s5, h4, h⟩ := andThen_ok h
    obtain ⟨s6, h5, h⟩ := andThen_ok h
    obtain ⟨s7, h6, h⟩ := andThen_ok h
    obtain ⟨s8, h7, h⟩ := andThen_ok h
    obtain ⟨s9, h8, h⟩ := andThen_ok h
    obtain ⟨s10, h9, h⟩ := andThen_ok h
    obtain ⟨s11, h10, h⟩ := andThen_ok h
    obtain ⟨s12, h11, h⟩ := andThen_ok h
    have hf : f = s12.removeRec tempDir := by
      injection h with h'
      exact h'.symm
    obtain ⟨hex1, hs2⟩ := mkdirStrict_ok _ _ _ h1
    obtain ⟨_, hs3⟩ := copySyncStep_ok _ _ _ _ h2
    obtain ⟨_, hs4⟩ := copySyncStep_ok _ _ _ _ h3
    have e2 : s2.readFile (cwd ++ [a.name, x]) = none := by
      rw [hs2, readFile_mkdirAt]
      exact readFile_none_of_not_existsPath _ _ _ (dest_reaches_child a.name x) hex1
    have e3 : s3.readFile (cwd ++ [a.name, x]) = s2.readFile (cwd ++ [a.name, x]) := by
      rw [hs3]
      exact readFile_copyRec_outside _ _ _ _
        (destFile_not_isPre a.name x ".context" hx1)
    have e4 : s4.readFile (cwd ++ [a.name, x]) = s3.readFile (cwd ++ [a.name, x]) := by
      rw [hs4]
      exact readFile_copyRec_outside _ _ _ _
        (destFile_not_isPre a.name x "examples" hx2)
    have e5 : s5.readFile (cwd ++ [a.name, x]) = s4.readFile (cwd ++ [a.name, x]) := by
      by_cases hc : (a.llm == "CLAUDE") = true
      · rw [if_pos hc] at h4
        obtain ⟨_, hs5⟩ := copySyncStep_ok _ _ _ _ h4
        rw [hs5]
        apply readFile_copyRec_outside
        apply destFile_not_isPre
        intro hxe
        apply hx6
        rw [hxe]
        have hce : a.llm = "CLAUDE" := by simpa using hc
        rw [hce]
        rfl
      · rw [if_neg hc] at h4
        obtain ⟨_, hs5⟩ := copySyncStep_ok _ _ _ _ h4
        rw [hs5]
        apply readFile_copyRec_outside
        apply destFile_not_isPre
        intro hxe
        apply hx6
        rw [hxe]
        rcases supported_cases a.llm hcllm with hg | hg
        · rw [hg]
          rfl
        · rw [hg] at hc
          exact absurd (by simp) hc
    have e6 : s6.readFile (cwd ++ [a.name, x]) = s5.readFile (cwd ++ [a.name, x]) := by
      obtain ⟨_, hs6⟩ := copySyncStep_ok _ _ _ _ h5
      rw [hs6]
      exact readFile_copyRec_outside _ _ _ _
        (destFile_not_isPre a.name x "INITIAL_EXAMPLE.md" hx3)
    have e7 : s7.readFile (cwd ++ [a.name, x]) = s6.readFile (cwd ++ [a.name, x]) := by
      obtain ⟨_, hs7⟩ := copySyncStep_ok _ _ _ _ h6
      rw [hs7]
      exact readFile_copyRec_outside _ _ _ _
        (destFile_not_isPre a.name x "INITIAL.md" hx4)
    have e8 : s8.readFile (cwd ++ [a.name, x]) = s7.readFile (cwd ++ [a.name, x]) := by
      obtain ⟨_, hs8⟩ := copySyncStep_ok _ _ _ _ h7
      rw [hs8]
      exact readFile_copyRec_outside _ _ _ _
        (destFile_not_isPre a.name x "README.md" hx5)
    have e9 : s9.readFile (cwd ++ [a.name, x]) = s8.readFile (cwd ++ [a.name, x]) := by
      unfold configurePRPTemplate at h8
      rcases configurePRPTemplateIn_ok _ _ _ _ _ _ h8 with hs9 | ⟨c, hs9⟩
      · rw [hs9]
      · rw [hs9]
        apply readFile_writeFile_ne
        intro he
        have := congrArg List.length he
        simp [cwd] at this
    have e10 : s10.readFile (cwd ++ [a.name, x]) = s9.readFile (cwd ++ [a.name, x]) := by
      rcases applyLangRulesSwapped_ok _ _ _ _ _ _ h9 with hs10 | ⟨c, hs10⟩
      · rw [hs10]
      · rw [hs10]
        apply readFile_writeFile_ne
        exact rooted_ne_dest _ _ _ _ (by decide)
    have e11 : s11.readFile (cwd ++ [a.name, x]) = s10.readFile (cwd ++ [a.name, x]) := by
      obtain ⟨_, hs11⟩ := mkdirStrict_ok _ _ _ h10
      rw [hs11, readFile_mkdirAt]
    have e12 : s12.readFile (cwd ++ [a.name, x]) = s11.readFile (cwd ++ [a.name, x]) := by
      obtain ⟨_, hs12⟩ := gitInitAt_ok _ _ _ _ h11
      rw [hs12, readFile_mkdirAt]
    have ef : f.readFile (cwd ++ [a.name, x]) = s12.readFile (cwd ++ [a.name, x]) := by
      rw [hf]
      exact readFile_removeRec_outside _ _ _ (isPre_append_eq_false _ _ _ (by decide))
    rw [ef, e12, e11, e10, e9, e8, e7, e6, e5, e4, e3, e2]

/-- A successful refactored-script run creates no destination file except the
copied root files, the selected branding file and the `.context` and
`examples` subtrees: any other direct destination entry reads as absent. -/
theorem runRefactored_file_absent (repo : FS) (env : Env) (raw : RawArgs)
    (s0 : FS) (f : FS) (x : String)
    (h : runRefactored repo env raw s0 = .ok f)
    (hx1 : x ≠ ".context") (hx2 : x ≠ "examples")
    (hx3 : x ≠ "INITIAL_EXAMPLE.md") (hx4 : x ≠ "INITIAL.md") (hx5 : x ≠ "README.md")
    (hx6 : x ≠ String.mk (raw.llm.data.map Char.toUpper) ++ ".md") :
    f.readFile (cwd ++ [raw.name, x]) = none := by
  simp only [runRefactored] at h
  cases htry : runRefactoredTry repo env raw s0 with
  | err m s =>
    rw [htry] at h
    exact absurd h (by simp)
  | ok s =>
    rw [htry] at h
    dsimp only [cleanupTempDirectory] at h
    injection h with h'
    have hf : f = s.removeRec tempDir := h'.symm
    simp only [runRefactoredTry] at htry
    cases hg : getAvailableLanguages tempDir (s0.graft tempDir repo) with
    | error m =>
      rw [hg] at htry
      exact absurd htry (by simp)
    | ok langs =>
      rw [hg] at htry
      dsimp only at htry
      cases hp : parseArguments langs raw with
      | none =>
        rw [hp] at htry
        exact absurd htry (by simp)
      | some a =>
        rw [hp] at htry
        dsimp only at htry
        obtain ⟨hname, hlang, hllm, _, hcllm⟩ := parseArguments_spec _ raw a hp
        rw [← hname]
        rw [← hllm] at hx6
        obtain ⟨s2, h1, htry⟩ := andThen_ok htry
        obtain ⟨s3, h2, htry⟩ := andThen_ok htry
        obtain ⟨s4, h3, htry⟩ := andThen_ok htry
        obtain ⟨s5, h4, htry⟩ := andThen_ok htry
        obtain ⟨s6, h5, htry⟩ := andThen_ok htry
        obtain ⟨s7, h6, htry⟩ := andThen_ok htry
        obtain ⟨s8, h7, htry⟩ := andThen_ok htry
        obtain ⟨s9, h8, htry⟩ := andThen_ok htry
        obtain ⟨hex1, hs2⟩ := validateProjectDirectory_ok _ _ _ h1
        have hs3 := createProjectDirectory_ok _ _ _ h2
        have e2 : s2.readFile (cwd ++ [a.name, x]) = none := by
          rw [hs2]
          exact readFile_none_of_not_existsPath _ _ _ (dest_reaches_child a.name x) hex1
        have e3 : s3.readFile (cwd ++ [a.name, x]) = s2.readFile (cwd ++ [a.name, x]) := by
          rw [hs3, readFile_mkdirAt]
        have e4 : s4.readFile (cwd ++ [a.name, x]) = s3.readFile (cwd ++ [a.name, x]) := by
          apply copyCoreDiretories_ok _ _ _ _ _ h3
          · exact destFile_not_isPre a.name x ".context" hx1
          · exact destFile_not_isPre a.name x "examples" hx2
        have e5 : s5.readFile (cwd ++ [a.name, x]) = s4.readFile (cwd ++ [a.name, x]) := by
          apply copyRequiredFiles_ok _ _ _ _ _ h4
          intro y hy
          simp only [REQUIRED_FILES, List.mem_cons, List.not_mem_nil, or_false] at hy
          rcases hy with hy | hy | hy
          · rw [hy]
            exact destFile_not_isPre a.name x "INITIAL_EXAMPLE.md" hx3
          · rw [hy]
            exact destFile_not_isPre a.name x "INITIAL.md" hx4
          · rw [hy]
            exact destFile_not_isPre a.name x "README.md" hx5
        have hxo : x ≠ a.llm ++ ".md" := hx6
        have e6 : s6.readFile (cwd ++ [a.name, x]) = s5.readFile (cwd ++ [a.name, x]) := by
          apply copyLLMFile_ok _ _ _ _ _ _ h5
          exact destFile_not_isPre a.name x (a.llm ++ ".md") hxo
        have e7 : s7.readFile (cwd ++ [a.name, x]) = s6.readFile (cwd ++ [a.name, x]) := by
          unfold configurePRPTemplate at h6
          rcases configurePRPTemplateIn_ok _ _ _ _ _ _ h6 with hs7 | ⟨c, hs7⟩
          · rw [hs7]
          · rw [hs7]
            apply readFile_writeFile_ne
            intro he
            have := congrArg List.length he
            simp [cwd] at this
        have e8 : s8.readFile (cwd ++ [a.name, x]) = s7.readFile (cwd ++ [a.name, x]) := by
          rcases applyLanguageRules_ok _ _ _ _ _ _ h7 with hs8 | ⟨c, hs8⟩
          · rw [hs8]
          · rw [hs8]
            apply readFile_writeFile_ne
            exact destFile_ne a.name x (a.llm ++ ".md") (fun he => hxo he.symm)
        have e9 : s9.readFile (cwd ++ [a.name, x]) = s8.readFile (cwd ++ [a.name, x]) := by
          obtain ⟨hfiles, _⟩ := initializeProjectStructure_ok _ _ _ _ _ h8
          exact readFile_congr_files _ _ _ hfiles
        have es : s.readFile (cwd ++ [a.name, x]) = s9.readFile (cwd ++ [a.name, x]) := by
          apply cleanupTemplateFiles_ok _ _ _ _ htry
          apply prefix_longer_false
          simp [cwd]
        have ef : f.readFile (cwd ++ [a.name, x]) = s.readFile (cwd ++ [a.name, x]) := by
          rw [hf]
          exact readFile_removeRec_outside _ _ _ (isPre_append_eq_false _ _ _ (by decide))
        rw [ef, es, e9, e8, e7, e6, e5, e4, e3, e2]

/-- C5 counterexample: a valid run of the legacy script (`--name myapp
--lang python --llm gemini`) succeeds and leaves BOTH `CLAUDE.md` and
`GEMINI.md` in the destination root, refuting "exactly one of the two
LLM-branding files ... never both CLAUDE.md and GEMINI.md". -/
theorem C5_one_branding_counterexample :
    (runLocal localTemplate envOk rawPyGemini baseState).isOk = true ∧
    ((runLocal localTemplate envOk rawPyGemini baseState).finalState.readFile
        (cwd ++ ["myapp", "CLAUDE.md"])).isSome = true ∧
    ((runLocal localTemplate envOk rawPyGemini baseState).finalState.readFile
        (cwd ++ ["myapp", "GEMINI.md"])).isSome = true := by
  decide

/-- C5 amended: in the two clone-based scripts a successful run never
creates the unselected branding file (and on the concrete template fixture
the selected one is present), while the legacy script copies both branding
files and writes the language rules into both. -/
theorem C5_one_branding_amended :
    (∀ repo env raw s0 f, runSimple repo env raw s0 = .ok f →
       (String.mk (raw.llm.data.map Char.toUpper) = "CLAUDE" →
          f.readFile (cwd ++ [raw.name, "GEMINI.md"]) = none) ∧
       (String.mk (raw.llm.data.map Char.toUpper) = "GEMINI" →
          f.readFile (cwd ++ [raw.name, "CLAUDE.md"]) = none)) ∧
    (∀ repo env raw s0 f, runRefactored repo env raw s0 = .ok f →
       (String.mk (raw.llm.data.map Char.toUpper) = "CLAUDE" →
          f.readFile (cwd ++ [raw.name, "GEMINI.md"]) = none) ∧
       (String.mk (raw.llm.data.map Char.toUpper) = "GEMINI" →
          f.readFile (cwd ++ [raw.name, "CLAUDE.md"]) = none)) ∧
    ((runSimple templateRepo envOk rawPyGemini baseState).finalState.readFile
        (cwd ++ ["myapp", "GEMINI.md"]) = some "BRAND-GEMINI".data ∧
     (runSimple templateRepo envOk rawReactClaude baseState).finalState.readFile
        (cwd ++ ["myapp", "CLAUDE.md"]) = some "BRAND-CLAUDE".data ∧
     (runRefactored templateRepo envOk rawPyGemini baseState).finalState.readFile
        (cwd ++ ["myapp", "GEMINI.md"]) = some "PYRULES".data ∧
     (runRefactored templateRepo envOk rawReactClaude baseState).finalState.readFile
        (cwd ++ ["myapp", "CLAUDE.md"]) = some "REACTRULES".data) ∧
    ((runLocal localTemplate envOk rawPyGemini baseState).finalState.readFile
        (cwd ++ ["myapp", "CLAUDE.md"]) = some "PYRULES".data ∧
     (runLocal localTemplate envOk rawPyGemini baseState).finalState.readFile
        (cwd ++ ["myapp", "GEMINI.md"]) = some "PYRULES".data) := by
  refine ⟨?_, ?_, ⟨by decide, by decide, by decide, by decide⟩, by decide, by decide⟩
  · intro repo env raw s0 f h
    constructor
    · intro hcl
      apply runSimple_file_absent repo env raw s0 f "GEMINI.md" h
        (by decide) (by decide) (by decide) (by decide) (by decide)
      rw [hcl]
      decide
    · intro hge
      apply runSimple_file_absent repo env raw s0 f "CLAUDE.md" h
        (by decide) (by decide) (by decide) (by decide) (by decide)
      rw [hge]
      decide
  · intro repo env raw s0 f h
    constructor
    · intro hcl
      apply runRefactored_file_absent repo env raw s0 f "GEMINI.md" h
        (by decide) (by decide) (by decide) (by decide) (by decide)
      rw [hcl]
      decide
    · intro hge
      apply runRefactored_file_absent repo env raw s0 f "CLAUDE.md" h
        (by decide) (by decide) (by decide) (by decide) (by decide)
      rw [hge]
      decide

/-- C5 witness: the amended claim at concrete runs of both clone-based
scripts. -/
theorem C5_one_branding_amended_witness :
    (runSimple templateRepo envOk rawPyGemini baseState).finalState.readFile
      (cwd ++ ["myapp", "CLAUDE.md"]) = none ∧
    (runRefactored templateRepo envOk rawReactClaude baseState).finalState.readFile
      (cwd ++ ["myapp", "GEMINI.md"]) = none :=
  ⟨(C5_one_branding_amended.1 templateRepo envOk rawPyGemini baseState _
      (by decide)).2 (by decide),
   (C5_one_branding_amended.2.1 templateRepo envOk rawReactClaude baseState _
      (by decide)).1 (by decide)⟩

/-- C1 (evaluation of the defect at the failing input): in the simple script,
with `Rules/python.md` present in the template and the run `--name myapp
--lang python --llm GEMINI`: step 5 writes the PATH STRING of the destination
branding file into the template clone's `Rules/python.md` (the swapped
`writeFileSync` arguments), the run then completes successfully with the
destination `GEMINI.md` still holding the generic branding content and NOT
the python rules content; the refactored script implements the claimed
behavior and does write the rules content into the destination `GEMINI.md`. -/
theorem C1_swapped_write_eval :
    ((applyLangRulesSwapped tempDir (cwd ++ ["myapp"]) "python" "GEMINI"
        (baseState.graft tempDir templateRepo)).finalState.readFile
      (tempDir ++ ["Rules", "python.md"]) =
      some (pathString (cwd ++ ["myapp", "GEMINI.md"]))) ∧
    (runSimple templateRepo envOk rawPyGemini baseState).isOk = true ∧
    (runSimple templateRepo envOk rawPyGemini baseState).finalState.readFile
      (cwd ++ ["myapp", "GEMINI.md"]) = some "BRAND-GEMINI".data ∧
    ¬ ((runSimple templateRepo envOk rawPyGemini baseState).finalState.readFile
        (cwd ++ ["myapp", "GEMINI.md"]) = some "PYRULES".data) ∧
    (runRefactored templateRepo envOk rawPyGemini baseState).finalState.readFile
      (cwd ++ ["myapp", "GEMINI.md"]) = some "PYRULES".data := by
  decide

/-- A directory in the listing exists. -/
theorem existsPath_of_dir_mem (s : FS) (p : FPath) (h : p ∈ s.dirs) :
    s.existsPath p = true := by
  simp only [FS.existsPath, Bool.or_eq_true]
  left
  rw [List.any_eq_true]
  refine ⟨p, h, ?_⟩
  simp [ List.isPrefixOf_iff_prefix]

/-- A directory outside the removed subtree survives `removeSync`. -/
theorem dir_mem_removeRec (s : FS) (q p : FPath) (h : p ∈ s.dirs)
    (hq : q.isPrefixOf p = false) : p ∈ (s.removeRec q).dirs := by
  simp only [FS.removeRec]
  rw [List.mem_filter]
  exact ⟨h, by simp [hq]⟩

/-- A directory not below the templates directory survives the cleanup fold. -/
theorem foldl_remove_dir_mem (tD : FPath) (names : List String) (p : FPath)
    (h : ∀ x : String, (tD ++ [x]).isPrefixOf p = false) :
    ∀ s : FS, p ∈ s.dirs →
      p ∈ (names.foldl (fun acc file =>
        if file == "prp_template.md" then acc
        else acc.removeRec (tD ++ [file])) s).dirs := by
  induction names with
  | nil => intro s hs; exact hs
  | cons d ds ih =>
    intro s hs
    rw [List.foldl_cons]
    by_cases he : (d == "prp_template.md") = true
    · rw [if_pos he]
      exact ih s hs
    · rw [if_neg he]
      exact ih _ (dir_mem_removeRec s _ p hs (h d))

/-- Directory membership through `cleanupTemplateFiles`. -/
theorem cleanupTemplateFiles_dir_mem (pD : FPath) (s t : FS) (p : FPath)
    (h : cleanupTemplateFiles pD s = .ok t) (hp : p ∈ s.dirs)
    (hdisj : ∀ x : String,
      ((pD ++ [".context", "templates"]) ++ [x]).isPrefixOf p = false) :
    p ∈ t.dirs := by
  simp only [cleanupTemplateFiles] at h
  by_cases he : s.existsPath (pD ++ [".context", "templates"]) = true
  · rw [he] at h
    simp only [Bool.not_true, Bool.false_eq_true, if_false] at h
    injection h with h'
    rw [← h']
    exact foldl_remove_dir_mem _ _ p hdisj s hp
  · rw [eq_false_of_ne_true he] at h
    simp only [Bool.not_false, if_true] at h
    injection h with h'
    rw [← h']
    exact hp

/-- A successful simple-script run had a working git and created the `.git`
directory inside the inner source directory `<destination>/<name>`. -/
theorem runSimple_ok_git (repo : FS) (env : Env) (raw : RawArgs) (s0 : FS) (f : FS)
    (h : runSimple repo env raw s0 = .ok f) :
    env.gitOk = true ∧
    f.existsPath (cwd ++ [raw.name] ++ [raw.name] ++ [".git"]) = true := by
  simp only [runSimple] at h
  by_cases hrules : (s0.graft tempDir repo).existsPath (tempDir ++ ["Rules"]) = true
  swap
  · rw [eq_false_of_ne_true hrules] at h
    simp only [Bool.not_false, if_true] at h
    exact absurd h (by simp)
  rw [hrules] at h
  simp only [Bool.not_true, Bool.false_eq_true, if_false] at h
  cases hp : parseArguments
      (mdBasenames ((s0.graft tempDir repo).readdirNames (tempDir ++ ["Rules"]))) raw with
  | none =>
    rw [hp] at h
    exact absurd h (by simp)
  | some a =>
    rw [hp] at h
    dsimp only at h
    have hname := (parseArguments_spec _ raw a hp).1
    rw [← hname]
    obtain ⟨s2, h1, h⟩ := andThen_ok h
    obtain ⟨s3, h2, h⟩ := andThen_ok h
    obtain ⟨s4, h3, h⟩ := andThen_ok h
    obtain ⟨s5, h4, h⟩ := andThen_ok h
    obtain ⟨s6, h5, h⟩ := andThen_ok h
    obtain ⟨s7, h6, h⟩ := andThen_ok h
    obtain ⟨s8, h7, h⟩ := andThen_ok h
    obtain ⟨s9, h8, h⟩ := andThen_ok h
    obtain ⟨s10, h9, h⟩ := andThen_ok h
    obtain ⟨s11, h10, h⟩ := andThen_ok h
    obtain ⟨s12, h11, h⟩ := andThen_ok h
    obtain ⟨hg, hs12⟩ := gitInitAt_ok _ _ _ _ h11
    have hf : f = s12.removeRec tempDir := by
      injection h with h'
      exact h'.symm
    refine ⟨hg, ?_⟩
    rw [hf]
    apply existsPath_of_dir_mem
    apply dir_mem_removeRec
    · rw [hs12]
      exact List.mem_cons_self _ _
    · exact isPre_append_eq_false _ _ _ (by decide)

/-- A simple-script run with a broken git never succeeds. -/
theorem runSimple_noGit_fails (repo : FS) (env : Env) (raw : RawArgs) (s0 : FS)
    (h : env.gitOk = false) : (runSimple repo env raw s0).isOk = false := by
  cases hr : runSimple repo env raw s0 with
  | err m s => rfl
  | ok f =>
    have hg := (runSimple_ok_git repo env raw s0 f hr).1
    rw [h] at hg
    exact absurd hg (by simp)

/-- A successful refactored-script run with a working git created the `.git`
directory inside the inner source directory `<destination>/<name>`. -/
theorem runRefactored_ok_git (repo : FS) (env : Env) (raw : RawArgs) (s0 : FS)
    (f : FS) (h : runRefactored repo env raw s0 = .ok f) (hg : env.gitOk = true) :
    f.existsPath (cwd ++ [raw.name] ++ [raw.name] ++ [".git"]) = true := by
  simp only [runRefactored] at h
  cases htry : runRefactoredTry repo env raw s0 with
  | err m s =>
    rw [htry] at h
    exact absurd h (by simp)
  | ok s =>
    rw [htry] at h
    dsimp only [cleanupTempDirectory] at h
    injection h with h'
    have hf : f = s.removeRec tempDir := h'.symm
    simp only [runRefactoredTry] at htry
    cases hgl : getAvailableLanguages tempDir (s0.graft tempDir repo) with
    | error m =>
      rw [hgl] at htry
      exact absurd htry (by simp)
    | ok langs =>
      rw [hgl] at htry
      dsimp only at htry
      cases hp : parseArguments langs raw with
      | none =>
        rw [hp] at htry
        exact absurd htry (by simp)
      | some a =>
        rw [hp] at htry
        dsimp only at htry
        have hname := (parseArguments_spec _ raw a hp).1
        rw [← hname]
        obtain ⟨s2, h1, htry⟩ := andThen_ok htry
        obtain ⟨s3, h2, htry⟩ := andThen_ok htry
        obtain ⟨s4, h3, htry⟩ := andThen_ok htry
        obtain ⟨s5, h4, htry⟩ := andThen_ok htry
        obtain ⟨s6, h5, htry⟩ := andThen_ok htry
        obtain ⟨s7, h6, htry⟩ := andThen_ok htry
        obtain ⟨s8, h7, htry⟩ := andThen_ok htry
        obtain ⟨s9, h8, htry⟩ := andThen_ok htry
        have hs9 := (initializeProjectStructure_ok _ _ _ _ _ h8).2 hg
        have hmem : (cwd ++ [a.name] ++ [a.name] ++ [".git"]) ∈ s9.dirs := by
          rw [hs9]
          exact List.mem_cons_self _ _
        have hmem2 : (cwd ++ [a.name] ++ [a.name] ++ [".git"]) ∈ s.dirs := by
          apply cleanupTemplateFiles_dir_mem _ _ _ _ htry hmem
          intro x
          apply prefix_longer_false
          simp [cwd]
        rw [hf]
        apply existsPath_of_dir_mem
        apply dir_mem_removeRec _ _ _ hmem2
        exact isPre_append_eq_false _ _ _ (by decide)

/-- C6 counterexample: in the refactored script a failing `git init` is only
warned about — the run `--name myapp --lang python --llm gemini` with a
broken git still succeeds and no `.git` directory exists anywhere under the
destination, refuting "failure of the version-control initialization is
fatal (reported, process exits non-zero)". -/
theorem C6_git_counterexample :
    (runRefactored templateRepo envNoGit rawPyGemini baseState).isOk = true ∧
    (runRefactored templateRepo envNoGit rawPyGemini baseState).finalState.existsPath
      (cwd ++ ["myapp", "myapp", ".git"]) = false := by
  decide

/-- C6 amended: both clone-based scripts root the repository at the inner
source directory `<destination>/<name>`; a git failure is fatal in the simple
script but only a warning in the refactored one (which still succeeds and
creates no repository); the legacy script roots the repository at the
destination root instead of the inner directory. -/
theorem C6_git_inner_amended :
    (∀ repo env raw s0 f, runSimple repo env raw s0 = .ok f →
       env.gitOk = true ∧
       f.existsPath (cwd ++ [raw.name] ++ [raw.name] ++ [".git"]) = true) ∧
    (∀ repo env raw s0 f, runRefactored repo env raw s0 = .ok f →
       env.gitOk = true →
       f.existsPath (cwd ++ [raw.name] ++ [raw.name] ++ [".git"]) = true) ∧
    (∀ repo env raw s0, env.gitOk = false →
       (runSimple repo env raw s0).isOk = false) ∧
    (runRefactored templateRepo envNoGit rawPyGemini baseState).isOk = true ∧
    ((runLocal localTemplate envOk rawPyGemini baseState).finalState.existsPath
        (cwd ++ ["myapp", ".git"]) = true ∧
     (runLocal localTemplate envOk rawPyGemini baseState).finalState.existsPath
        (cwd ++ ["myapp", "myapp", ".git"]) = false) := by
  refine ⟨?_, ?_, ?_, by decide, by decide, by decide⟩
  · intro repo env raw s0 f h
    exact runSimple_ok_git repo env raw s0 f h
  · intro repo env raw s0 f h hg
    exact runRefactored_ok_git repo env raw s0 f h hg
  · intro repo env raw s0 h
    exact runSimple_noGit_fails repo env raw s0 h

/-- C6 witness: the amended claim at concrete successful runs. -/
theorem C6_git_inner_amended_witness :
    (envOk.gitOk = true ∧
      (runSimple templateRepo envOk rawPyGemini baseState).finalState.existsPath
        (cwd ++ [rawPyGemini.name] ++ [rawPyGemini.name] ++ [".git"]) = true) ∧
    (runRefactored templateRepo envOk rawPyGemini baseState).finalState.existsPath
      (cwd ++ [rawPyGemini.name] ++ [rawPyGemini.name] ++ [".git"]) = true ∧
    (runSimple templateRepo envNoGit rawPyGemini baseState).isOk = false :=
  ⟨C6_git_inner_amended.1 templateRepo envOk rawPyGemini baseState _ (by decide),
   C6_git_inner_amended.2.1 templateRepo envOk rawPyGemini baseState _ (by decide) (by decide),
   C6_git_inner_amended.2.2.1 templateRepo envNoGit rawPyGemini baseState (by decide)⟩

/-- C4: when the per-language template variant is present with some content,
`configurePRPTemplate` succeeds and writes as `prp_template.md` the variant
content with the placeholder token globally replaced by the selected LLM
name: the content splits into token-free segments interleaved with the
token, the written file is the same segments interleaved with the literal
LLM string, and the written file has zero occurrences of the token. -/
theorem C4_placeholder_substitution (projectDir : FPath) (language llm : String)
    (s : FS) (content : List Char)
    (hllm : llm = "GEMINI" ∨ llm = "CLAUDE")
    (hex : s.existsPath (projectDir ++ [".context", "templates",
      "prp_template_" ++ language ++ ".md"]) = true)
    (hread : s.readFile (projectDir ++ [".context", "templates",
      "prp_template_" ++ language ++ ".md"]) = some content) :
    ∃ t, configurePRPTemplate projectDir language llm s = .ok t ∧
      t.readFile (projectDir ++ [".context", "templates", "prp_template.md"]) =
        some (replaceAllL llmAgentToken llm.data content) ∧
      countOcc llmAgentToken (replaceAllL llmAgentToken llm.data content) = 0 ∧
      ∃ pieces, content = joinWith llmAgentToken pieces ∧
        replaceAllL llmAgentToken llm.data content = joinWith llm.data pieces ∧
        ∀ p ∈ pieces, countOcc llmAgentToken p = 0 := by
  have hrepOk : llm.data = "GEMINI".data ∨ llm.data = "CLAUDE".data := by
    rcases hllm with h | h
    · left
      rw [h]
    · right
      rw [h]
  have key := token_replace_clean llm.data hrepOk content
  refine ⟨s.writeFile (projectDir ++ [".context", "templates", "prp_template.md"])
      (replaceAllL llmAgentToken llm.data content), ?_, ?_, key.1,
      splitOnL llmAgentToken content, key.2.1.symm, key.2.2.1, key.2.2.2⟩
  · simp only [configurePRPTemplate, configurePRPTemplateIn]
    rw [hex]
    simp only [if_true]
    rw [hread]
  · exact readFile_writeFile_self _ _ _

/-- C4 witness: the react template variant fixture with two token
occurrences, at a concrete state. -/
theorem C4_placeholder_substitution_witness :
    ∃ t, configurePRPTemplate (cwd ++ ["p"]) "react" "GEMINI"
        (FS.mk [ (cwd ++ ["p", ".context", "templates", "prp_template_react.md"],
                  reactVariantContent) ] []) = .ok t ∧
      t.readFile (cwd ++ ["p", ".context", "templates", "prp_template.md"]) =
        some (replaceAllL llmAgentToken "GEMINI".data reactVariantContent) ∧
      countOcc llmAgentToken
        (replaceAllL llmAgentToken "GEMINI".data reactVariantContent) = 0 ∧
      ∃ pieces, reactVariantContent = joinWith llmAgentToken pieces ∧
        replaceAllL llmAgentToken "GEMINI".data reactVariantContent =
          joinWith "GEMINI".data pieces ∧
        ∀ p ∈ pieces, countOcc llmAgentToken p = 0 :=
  C4_placeholder_substitution (cwd ++ ["p"]) "react" "GEMINI" _
    reactVariantContent (Or.inl rfl) (by decide) (by decide)

/-- C9: when no per-language template variant exists, the configuration step
is skipped without error and leaves the state untouched; and a full run with
such a language (python on the fixture) still completes successfully, with
the generic PRP template exactly as copied. -/
theorem C9_optional_template_skip (projectDir : FPath) (language llm : String)
    (s : FS)
    (habs : s.existsPath (projectDir ++ [".context", "templates",
      "prp_template_" ++ language ++ ".md"]) = false) :
    configurePRPTemplate projectDir language llm s = .ok s ∧
    (runSimple templateRepo envOk rawPyGemini baseState).isOk = true ∧
    (runSimple templateRepo envOk rawPyGemini baseState).finalState.readFile
      (cwd ++ ["myapp", ".context", "templates", "prp_template.md"]) =
      some "GENERIC".data ∧
    (runRefactored templateRepo envOk rawPyGemini baseState).isOk = true ∧
    (runRefactored templateRepo envOk rawPyGemini baseState).finalState.readFile
      (cwd ++ ["myapp", ".context", "templates", "prp_template.md"]) =
      some "GENERIC".data := by
  refine ⟨?_, by decide, by decide, by decide, by decide⟩
  simp only [configurePRPTemplate, configurePRPTemplateIn]
  rw [habs]
  simp

/-- C9 witness: the skip applied to the concrete grafted fixture state, in
which python has no template variant. -/
theorem C9_optional_template_skip_witness :
    configurePRPTemplate (cwd ++ ["myapp"]) "python" "GEMINI"
      (baseState.graft tempDir templateRepo) = .ok
      (baseState.graft tempDir templateRepo) :=
  (C9_optional_template_skip (cwd ++ ["myapp"]) "python" "GEMINI"
    (baseState.graft tempDir templateRepo) (by decide)).1

/-- C7: when the Rules directory exists but yields no language (no `.md`
entry), both clone-based scripts exit non-zero — the simple one because the
empty choices list rejects every `--lang`, the refactored one through the
dedicated "No language files found" error — and the destination subtree is
untouched: the tool never proceeds with an empty option set. -/
theorem C7_empty_language_set (repo : FS) (env : Env) (raw : RawArgs) (s0 : FS)
    (hex : (s0.graft tempDir repo).existsPath (tempDir ++ ["Rules"]) = true)
    (hnomd : mdBasenames ((s0.graft tempDir repo).readdirNames
      (tempDir ++ ["Rules"])) = []) :
    ((runSimple repo env raw s0).isOk = false ∧
     (runSimple repo env raw s0).finalState.filesUnder (cwd ++ [raw.name]) =
       s0.filesUnder (cwd ++ [raw.name]) ∧
     (runSimple repo env raw s0).finalState.dirsUnder (cwd ++ [raw.name]) =
       s0.dirsUnder (cwd ++ [raw.name])) ∧
    (getAvailableLanguages tempDir (s0.graft tempDir repo) =
       .error "No language files found in Rules directory" ∧
     (runRefactored repo env raw s0).isOk = false ∧
     (runRefactored repo env raw s0).finalState.filesUnder (cwd ++ [raw.name]) =
       s0.filesUnder (cwd ++ [raw.name]) ∧
     (runRefactored repo env raw s0).finalState.dirsUnder (cwd ++ [raw.name]) =
       s0.dirsUnder (cwd ++ [raw.name])) := by
  have hfiles : (s0.graft tempDir repo).filesUnder (cwd ++ [raw.name]) =
      s0.filesUnder (cwd ++ [raw.name]) :=
    filesUnder_after_graft s0 repo tempDir _ (dest_vs_tempDir raw.name)
  have hdirs : (s0.graft tempDir repo).dirsUnder (cwd ++ [raw.name]) =
      s0.dirsUnder (cwd ++ [raw.name]) :=
    dirsUnder_after_graft s0 repo tempDir _ (dest_vs_tempDir raw.name)
  have hgal : getAvailableLanguages tempDir (s0.graft tempDir repo) =
      .error "No language files found in Rules directory" := by
    simp only [getAvailableLanguages]
    rw [hex]
    simp only [Bool.not_true, Bool.false_eq_true, if_false]
    rw [hnomd]
    simp
  have hrej : parseArguments (mdBasenames ((s0.graft tempDir repo).readdirNames
      (tempDir ++ ["Rules"]))) raw = none := by
    rw [hnomd]
    exact parseArguments_rejects [] raw (Or.inl rfl)
  constructor
  · simp only [runSimple]
    rw [hex]
    simp only [Bool.not_true, Bool.false_eq_true, if_false]
    rw [hrej]
    exact ⟨rfl, hfiles, hdirs⟩
  · refine ⟨hgal, ?_⟩
    simp only [runRefactored, runRefactoredTry]
    rw [hgal]
    dsimp only [StepResult.isOk, StepResult.finalState]
    exact ⟨rfl, hfiles, hdirs⟩

/-- C7 witness: the fixture template whose Rules directory holds only a
`README.txt`. -/
theorem C7_empty_language_set_witness :
    ((runSimple emptyRulesRepo envOk rawPyGemini baseState).isOk = false ∧
     (runSimple emptyRulesRepo envOk rawPyGemini baseState).finalState.filesUnder
       (cwd ++ [rawPyGemini.name]) = baseState.filesUnder (cwd ++ [rawPyGemini.name]) ∧
     (runSimple emptyRulesRepo envOk rawPyGemini baseState).finalState.dirsUnder
       (cwd ++ [rawPyGemini.name]) = baseState.dirsUnder (cwd ++ [rawPyGemini.name])) ∧
    (getAvailableLanguages tempDir (baseState.graft tempDir emptyRulesRepo) =
       .error "No language files found in Rules directory" ∧
     (runRefactored emptyRulesRepo envOk rawPyGemini baseState).isOk = false ∧
     (runRefactored emptyRulesRepo envOk rawPyGemini baseState).finalState.filesUnder
       (cwd ++ [rawPyGemini.name]) = baseState.filesUnder (cwd ++ [rawPyGemini.name]) ∧
     (runRefactored emptyRulesRepo envOk rawPyGemini baseState).finalState.dirsUnder
       (cwd ++ [rawPyGemini.name]) = baseState.dirsUnder (cwd ++ [rawPyGemini.name])) :=
  C7_empty_language_set emptyRulesRepo envOk rawPyGemini baseState
    (by decide) (by decide)

/-- C8: yargs argument validation as declared by all three scripts — a
`lang` outside the discovered choices, or an `llm` whose uppercase coercion
is outside {GEMINI, CLAUDE}, makes parsing fail; every accepted result
carries the uppercase normalization of `llm`; and a parse failure exits
non-zero before any write below the destination, in both clone-based
pipelines. -/
theorem C8_argument_validation (raw : RawArgs) :
    (∀ langs : List String,
       (langs.contains raw.lang = false ∨
        SUPPORTED_LLMS.contains (String.mk (raw.llm.data.map Char.toUpper)) = false) →
       parseArguments langs raw = none) ∧
    (∀ langs a, parseArguments langs raw = some a →
       a.name = raw.name ∧ a.lang = raw.lang ∧
       a.llm = String.mk (raw.llm.data.map Char.toUpper) ∧
       langs.contains raw.lang = true ∧
       SUPPORTED_LLMS.contains a.llm = true) ∧
    (∀ repo env s0,
       parseArguments (mdBasenames ((s0.graft tempDir repo).readdirNames
         (tempDir ++ ["Rules"]))) raw = none →
       (runSimple repo env raw s0).isOk = false ∧
       (runSimple repo env raw s0).finalState.filesUnder (cwd ++ [raw.name]) =
         s0.filesUnder (cwd ++ [raw.name]) ∧
       (runSimple repo env raw s0).finalState.dirsUnder (cwd ++ [raw.name]) =
         s0.dirsUnder (cwd ++ [raw.name])) ∧
    (∀ repo env s0 langs,
       getAvailableLanguages tempDir (s0.graft tempDir repo) = .ok langs →
       parseArguments langs raw = none →
       (runRefactored repo env raw s0).isOk = false ∧
       (runRefactored repo env raw s0).finalState.filesUnder (cwd ++ [raw.name]) =
         s0.filesUnder (cwd ++ [raw.name]) ∧
       (runRefactored repo env raw s0).finalState.dirsUnder (cwd ++ [raw.name]) =
         s0.dirsUnder (cwd ++ [raw.name])) := by
  refine ⟨?_, ?_, ?_, ?_⟩
  · intro langs h
    exact parseArguments_rejects langs raw h
  · intro langs a h
    obtain ⟨h1, h2, h3, h4, h5⟩ := parseArguments_spec langs raw a h
    refine ⟨h1, h2, h3, h4, ?_⟩
    rw [h3]
    exact h5
  · intro repo env s0 hrej
    have hfiles : (s0.graft tempDir repo).filesUnder (cwd ++ [raw.name]) =
        s0.filesUnder (cwd ++ [raw.name]) :=
      filesUnder_after_graft s0 repo tempDir _ (dest_vs_tempDir raw.name)
    have hdirs : (s0.graft tempDir repo).dirsUnder (cwd ++ [raw.name]) =
        s0.dirsUnder (cwd ++ [raw.name]) :=
      dirsUnder_after_graft s0 repo tempDir _ (dest_vs_tempDir raw.name)
    simp only [runSimple]
    by_cases hrules : (s0.graft tempDir repo).existsPath (tempDir ++ ["Rules"]) = true
    · rw [hrules]
      simp only [Bool.not_true, Bool.false_eq_true, if_false]
      rw [hrej]
      exact ⟨rfl, hfiles, hdirs⟩
    · rw [eq_false_of_ne_true hrules]
      simp only [Bool.not_false, if_true]
      exact ⟨rfl, hfiles, hdirs⟩
  · intro repo env s0 langs hgal hrej
    have hfiles : (s0.graft tempDir repo).filesUnder (cwd ++ [raw.name]) =
        s0.filesUnder (cwd ++ [raw.name]) :=
      filesUnder_after_graft s0 repo tempDir _ (dest_vs_tempDir raw.name)
    have hdirs : (s0.graft tempDir repo).dirsUnder (cwd ++ [raw.name]) =
        s0.dirsUnder (cwd ++ [raw.name]) :=
      dirsUnder_after_graft s0 repo tempDir _ (dest_vs_tempDir raw.name)
    simp only [runRefactored, runRefactoredTry]
    rw [hgal]
    dsimp only
    rw [hrej]
    dsimp only [StepResult.isOk, StepResult.finalState]
    exact ⟨rfl, hfiles, hdirs⟩

/-- C8 witness: a rejected `--lang rust` against the discovered set of the
fixture, an accepted lowercase `--llm gemini` normalized to uppercase, and
the rejection exercised end-to-end on both pipelines. -/
theorem C8_argument_validation_witness :
    parseArguments ["python", "react"] (RawArgs.mk "myapp" "rust" "gemini") = none ∧
    ((Args.mk "myapp" "python" "GEMINI").name = rawPyGemini.name ∧
     (Args.mk "myapp" "python" "GEMINI").lang = rawPyGemini.lang ∧
     (Args.mk "myapp" "python" "GEMINI").llm =
       String.mk (rawPyGemini.llm.data.map Char.toUpper) ∧
     (["python", "react"] : List String).contains rawPyGemini.lang = true ∧
     SUPPORTED_LLMS.contains (Args.mk "myapp" "python" "GEMINI").llm = true) ∧
    ((runSimple templateRepo envOk (RawArgs.mk "myapp" "rust" "gemini") baseState).isOk
        = false ∧
     (runSimple templateRepo envOk (RawArgs.mk "myapp" "rust" "gemini")
        baseState).finalState.filesUnder (cwd ++ ["myapp"]) =
       baseState.filesUnder (cwd ++ ["myapp"]) ∧
     (runSimple templateRepo envOk (RawArgs.mk "myapp" "rust" "gemini")
        baseState).finalState.dirsUnder (cwd ++ ["myapp"]) =
       baseState.dirsUnder (cwd ++ ["myapp"])) :=
  ⟨(C8_argument_validation (RawArgs.mk "myapp" "rust" "gemini")).1
      ["python", "react"] (Or.inl (by decide)),
   (C8_argument_validation rawPyGemini).2.1 ["python", "react"]
      (Args.mk "myapp" "python" "GEMINI") (by decide),
   (C8_argument_validation (RawArgs.mk "myapp" "rust" "gemini")).2.2.1
      templateRepo envOk baseState (by decide)⟩

/-! ### The template-cleanup development (C10) -/

/-- The cleanup fold only ever removes entries. -/
theorem foldl_remove_subset (tD : FPath) :
    ∀ (names : List String) (s : FS),
      (names.foldl (fun acc file =>
        if file == "prp_template.md" then acc
        else acc.removeRec (tD ++ [file])) s).files ⊆ s.files ∧
      (names.foldl (fun acc file =>
        if file == "prp_template.md" then acc
        else acc.removeRec (tD ++ [file])) s).dirs ⊆ s.dirs := by
  intro names
  induction names with
  | nil =>
    intro s
    exact ⟨fun e he => he, fun d hd => hd⟩
  | cons d ds ih =>
    intro s
    rw [List.foldl_cons]
    by_cases he : (d == "prp_template.md") = true
    · rw [if_pos he]
      exact ih s
    · rw [if_neg he]
      obtain ⟨ihf, ihd⟩ := ih (s.removeRec (tD ++ [d]))
      constructor
      · intro e hee
        have := ihf hee
        simp only [FS.removeRec] at this
        exact List.mem_of_mem_filter this
      · intro e hee
        have := ihd hee
        simp only [FS.removeRec] at this
        exact List.mem_of_mem_filter this

/-- Once the cleanup fold has processed name `x ≠ prp_template.md`, nothing
below `tD/x` survives. -/
theorem foldl_remove_kills (tD : FPath) (x : String)
    (hx : (x == "prp_template.md") = false) :
    ∀ (names : List String) (s : FS), x ∈ names →
      (∀ e ∈ (names.foldl (fun acc file =>
        if file == "prp_template.md" then acc
        else acc.removeRec (tD ++ [file])) s).files,
        (tD ++ [x]).isPrefixOf e.1 = false) ∧
      (∀ d ∈ (names.foldl (fun acc file =>
        if file == "prp_template.md" then acc
        else acc.removeRec (tD ++ [file])) s).dirs,
        (tD ++ [x]).isPrefixOf d = false) := by
  intro names
  induction names with
  | nil =>
    intro s hmem
    exact absurd hmem (by simp)
  | cons d ds ih =>
    intro s hmem
    rw [List.foldl_cons]
    rcases List.mem_cons.mp hmem with hxd | hxds
    · subst hxd
      rw [if_neg (by simp_all)]
      obtain ⟨hsf, hsd⟩ := foldl_remove_subset tD ds (s.removeRec (tD ++ [x]))
      constructor
      · intro e hee
        have hmem2 := hsf hee
        simp only [FS.removeRec] at hmem2
        rcases List.mem_filter.mp hmem2 with ⟨_, hcond⟩
        simp only [Bool.not_eq_true'] at hcond
        exact hcond
      · intro e hee
        have hmem2 := hsd hee
        simp only [FS.removeRec] at hmem2
        rcases List.mem_filter.mp hmem2 with ⟨_, hcond⟩
        simp only [Bool.not_eq_true'] at hcond
        exact hcond
    · by_cases he : (d == "prp_template.md") = true
      · rw [if_pos he]
        exact ih s hxds
      · rw [if_neg he]
        exact ih (s.removeRec (tD ++ [d])) hxds

/-- A child name witnesses that the extended path reaches the entry. -/
theorem childNameOf_extend (p q : FPath) (x : String)
    (h : childNameOf p q = some x) : (p ++ [x]).isPrefixOf q = true := by
  unfold childNameOf at h
  by_cases hp : p.isPrefixOf q = true
  · rw [if_pos hp] at h
    obtain ⟨rest, hdrop⟩ : ∃ rest, q.drop p.length = x :: rest := by
      cases hd : q.drop p.length with
      | nil =>
        rw [hd] at h
        exact absurd h (by simp)
      | cons a r =>
        rw [hd] at h
        injection h with h'
        exact ⟨r, by rw [h']⟩
    have hq : p ++ q.drop p.length = q := by
      have hpre : p <+: q := by
        simpa [ List.isPrefixOf_iff_prefix] using hp
      exact List.prefix_iff_eq_append.mp hpre
    rw [hdrop] at hq
    have hpre2 : (p ++ [x]) <+: q := by
      rw [← hq]
      refine ⟨rest, ?_⟩
      simp
    simpa [ List.isPrefixOf_iff_prefix] using hpre2
  · rw [if_neg hp] at h
    exact absurd h (by simp)

/-- If an extension of `p` reaches `q`, so does `p`. -/
theorem prefix_extend_true (p r q : FPath) (h : (p ++ r).isPrefixOf q = true) :
    p.isPrefixOf q = true := by
  cases hb : p.isPrefixOf q
  · have := prefix_extend_false p r q hb
    rw [h] at this
    exact absurd this (by simp)
  · rfl

/-- Membership in a directory listing, unpacked. -/
theorem mem_readdirNames_iff (s : FS) (p : FPath) (x : String) :
    x ∈ s.readdirNames p ↔
      (∃ e ∈ s.files, childNameOf p e.1 = some x) ∨
      (∃ d ∈ s.dirs, childNameOf p d = some x) := by
  simp [FS.readdirNames, List.mem_dedup, List.mem_append, List.mem_filterMap]

/-- After `cleanupTemplateFiles`, the templates directory lists nothing but
`prp_template.md`. -/
theorem cleanupTemplateFiles_only_generic (pD : FPath) (s t : FS)
    (h : cleanupTemplateFiles pD s = .ok t) :
    ∀ x ∈ t.readdirNames (pD ++ [".context", "templates"]),
      x = "prp_template.md" := by
  intro x hx
  by_contra hne
  have hxb : (x == "prp_template.md") = false := by
    rw [beq_eq_false_iff_ne]
    exact hne
  simp only [cleanupTemplateFiles] at h
  by_cases he : s.existsPath (pD ++ [".context", "templates"]) = true
  · rw [he] at h
    simp only [Bool.not_true, Bool.false_eq_true, if_false] at h
    injection h with h'
    subst h'
    rcases (mem_readdirNames_iff _ _ _).mp hx with ⟨e, hef, hce⟩ | ⟨d, hdd, hcd⟩
    · have hpre := childNameOf_extend _ _ _ hce
      have hes : e ∈ s.files :=
        (foldl_remove_subset _ _ s).1 hef
      have hxs : x ∈ s.readdirNames (pD ++ [".context", "templates"]) :=
        (mem_readdirNames_iff _ _ _).mpr (Or.inl ⟨e, hes, hce⟩)
      have := (foldl_remove_kills _ x hxb _ s hxs).1 e hef
      rw [hpre] at this
      exact absurd this (by simp)
    · have hpre := childNameOf_extend _ _ _ hcd
      have hds : d ∈ s.dirs :=
        (foldl_remove_subset _ _ s).2 hdd
      have hxs : x ∈ s.readdirNames (pD ++ [".context", "templates"]) :=
        (mem_readdirNames_iff _ _ _).mpr (Or.inr ⟨d, hds, hcd⟩)
      have := (foldl_remove_kills _ x hxb _ s hxs).2 d hdd
      rw [hpre] at this
      exact absurd this (by simp)
  · rw [eq_false_of_ne_true he] at h
    simp only [Bool.not_false, if_true] at h
    injection h with h'
    subst h'
    rcases (mem_readdirNames_iff _ _ _).mp hx with ⟨e, hef, hce⟩ | ⟨d, hdd, hcd⟩
    · have hpre := childNameOf_extend _ _ _ hce
      have hexx : s.existsPath (pD ++ [".context", "templates"]) = true := by
        simp only [FS.existsPath, Bool.or_eq_true]
        right
        rw [List.any_eq_true]
        refine ⟨e, hef, prefix_extend_true _ _ _ hpre⟩
      exact absurd hexx he
    · have hpre := childNameOf_extend _ _ _ hcd
      have hexx : s.existsPath (pD ++ [".context", "templates"]) = true := by
        simp only [FS.existsPath, Bool.or_eq_true]
        left
        rw [List.any_eq_true]
        refine ⟨d, hdd, prefix_extend_true _ _ _ hpre⟩
      exact absurd hexx he

/-- C10: after a successful refactored-script run, every entry of the
destination's `.context/templates` directory other than `prp_template.md`
has been deleted before the run reports success; concretely, the react
variant copied in step 2 does not survive while the configured generic
template does. -/
theorem C10_templates_cleanup :
    (∀ repo env raw s0 f, runRefactored repo env raw s0 = .ok f →
       ∀ x ∈ f.readdirNames ((cwd ++ [raw.name]) ++ [".context", "templates"]),
         x = "prp_template.md") ∧
    (runRefactored templateRepo envOk rawReactClaude baseState).finalState.readFile
      (cwd ++ ["myapp", ".context", "templates", "prp_template_react.md"]) = none ∧
    ((runRefactored templateRepo envOk rawReactClaude baseState).finalState.readFile
      (cwd ++ ["myapp", ".context", "templates", "prp_template.md"])).isSome = true := by
  refine ⟨?_, by decide, by decide⟩
  intro repo env raw s0 f h x hx
  simp only [runRefactored] at h
  cases htry : runRefactoredTry repo env raw s0 with
  | err m s =>
    rw [htry] at h
    exact absurd h (by simp)
  | ok s =>
    rw [htry] at h
    dsimp only [cleanupTempDirectory] at h
    injection h with h'
    have hf : f = s.removeRec tempDir := h'.symm
    simp only [runRefactoredTry] at htry
    cases hgl : getAvailableLanguages tempDir (s0.graft tempDir repo) with
    | error m =>
      rw [hgl] at htry
      exact absurd htry (by simp)
    | ok langs =>
      rw [hgl] at htry
      dsimp only at htry
      cases hp : parseArguments langs raw with
      | none =>
        rw [hp] at htry
        exact absurd htry (by simp)
      | some a =>
        rw [hp] at htry
        dsimp only at htry
        have hname := (parseArguments_spec _ raw a hp).1
        rw [← hname] at hx
        obtain ⟨s2, h1, htry⟩ := andThen_ok htry
        obtain ⟨s3, h2, htry⟩ := andThen_ok htry
        obtain ⟨s4, h3, htry⟩ := andThen_ok htry
        obtain ⟨s5, h4, htry⟩ := andThen_ok htry
        obtain ⟨s6, h5, htry⟩ := andThen_ok htry
        obtain ⟨s7, h6, htry⟩ := andThen_ok htry
        obtain ⟨s8, h7, htry⟩ := andThen_ok htry
        obtain ⟨s9, h8, htry⟩ := andThen_ok htry
        rw [hf] at hx
        have hxs : x ∈ s.readdirNames ((cwd ++ [a.name]) ++ [".context", "templates"]) := by
          rcases (mem_readdirNames_iff _ _ _).mp hx with ⟨e, hef, hce⟩ | ⟨d, hdd, hcd⟩
          · refine (mem_readdirNames_iff _ _ _).mpr (Or.inl ⟨e, ?_, hce⟩)
            simp only [FS.removeRec] at hef
            exact List.mem_of_mem_filter hef
          · refine (mem_readdirNames_iff _ _ _).mpr (Or.inr ⟨d, ?_, hcd⟩)
            simp only [FS.removeRec] at hdd
            exact List.mem_of_mem_filter hdd
        exact cleanupTemplateFiles_only_generic _ _ _ htry x hxs

/-- C10 witness: the react variant is not among the entries of the final
templates directory of the concrete successful run. -/
theorem C10_templates_cleanup_witness :
    "prp_template_react.md" ∉
      (runRefactored templateRepo envOk rawReactClaude baseState).finalState.readdirNames
        ((cwd ++ [rawReactClaude.name]) ++ [".context", "templates"]) := by
  intro hmem
  have hcontra := C10_templates_cleanup.1 templateRepo envOk rawReactClaude baseState
    ((runRefactored templateRepo envOk rawReactClaude baseState).finalState)
    (by decide) "prp_template_react.md" hmem
  exact absurd hcontra (by decide)
